import Mathlib

set_option maxHeartbeats 1000000

/-!
Verification of the ANSI-aware wrapping core of streamdown-rs.

The embedding covers `crates/streamdown-ansi/src/utils.rs` (visible,
visible_length, extract_ansi_codes, parse_sgr_params, ansi_collapse) and
`crates/streamdown-render/src/text.rs` (split_text, text_wrap,
truncate_to_visible).  Strings are modelled as lists of characters, matching
the Rust code, which iterates over `char` code points throughout.
-/

/-- Strings as lists of Unicode code points, the granularity of the source. -/
abbrev Str := List Char

/-- Convenience conversion from Lean string literals. -/
def strOf (s : String) : Str := s.data

/-- The escape character `\x1b`. -/
def escChar : Char := '\x1b'

/-- The horizontal ellipsis appended by `text_wrap` when truncating. -/
def hellip : Char := '…'

/-- Modelled from the spec: the Unicode display-width table supplied by the
external `unicode-width` crate (not part of src/).  Each code point yields
0, 1 or 2 columns; control characters yield no width (`none`), exactly the
`UnicodeWidthChar::width` contract the spec describes as "a function from
code point to column count".  Only the character classes exercised by this
development are distinguished. -/
def charWidthOpt (c : Char) : Option Nat :=
  let n := c.toNat
  if n < 0x20 ∨ (0x7f ≤ n ∧ n ≤ 0x9f) then none
  else if n = 0x200b ∨ n = 0x200d ∨ (0x300 ≤ n ∧ n ≤ 0x36f) then some 0
  else if (0x1100 ≤ n ∧ n ≤ 0x115f) ∨ (0x2e80 ≤ n ∧ n ≤ 0xa4cf) ∨
      (0xac00 ≤ n ∧ n ≤ 0xd7a3) ∨ (0xf900 ≤ n ∧ n ≤ 0xfaff) ∨
      (0xfe30 ≤ n ∧ n ≤ 0xfe4f) ∨ (0xff00 ≤ n ∧ n ≤ 0xff60) ∨
      (0xffe0 ≤ n ∧ n ≤ 0xffe6) ∨ (0x1f300 ≤ n ∧ n ≤ 0x1f64f) ∨
      (0x1f900 ≤ n ∧ n ≤ 0x1f9ff) ∨ (0x20000 ≤ n ∧ n ≤ 0x3fffd) then some 2
  else some 1

/-- Character width as summed by `UnicodeWidthStr::width` (control chars count 0). -/
def width0 (c : Char) : Nat := (charWidthOpt c).getD 0

/-- Character width as used in `truncate_to_visible` (`width(ch).unwrap_or(1)`). -/
def widthOr1 (c : Char) : Nat := (charWidthOpt c).getD 1

/-- Display width of a string: sum of the per-character widths. -/
def strWidth (l : Str) : Nat := (l.map width0).sum

/-- Character class `[0-9;?]` of the CSI body in the ANSIESCAPE regex. -/
def isDigitSemiQ (c : Char) : Bool := c.isDigit || c = ';' || c = '?'

/-- Character class `[0-9;]` of the SGR body in the ESCAPE regex. -/
def isDigitSemi (c : Char) : Bool := c.isDigit || c = ';'

/-- ASCII letter class `[a-zA-Z]`. -/
def isAsciiLetter (c : Char) : Bool :=
  (65 ≤ c.toNat && c.toNat ≤ 90) || (97 ≤ c.toNat && c.toNat ≤ 122)

/-- Rust `char::is_whitespace`: the Unicode `White_Space` property. -/
def rustIsWhitespace (c : Char) : Bool :=
  let n := c.toNat
  (0x9 ≤ n && n ≤ 0xd) || n = 0x20 || n = 0x85 || n = 0xa0 || n = 0x1680 ||
  (0x2000 ≤ n && n ≤ 0x200a) || n = 0x2028 || n = 0x2029 || n = 0x202f ||
  n = 0x205f || n = 0x3000

/-- The lazy suffix `.*?\\` of the OSC alternative of ANSIESCAPE: consumes the
shortest run of non-newline characters ending at a backslash, returning the
rest after that backslash. -/
def oscLazy : Str → Option Str
  | [] => none
  | c :: rest =>
    if c = '\\' then some rest
    else if c = '\n' then none
    else oscLazy rest

/-- Match of the ANSIESCAPE regex
`\x1b(?:\[[0-9;?]*[a-zA-Z]|\][0-9]*;;.*?\\|\))` anchored at the head of `l`
(leftmost-first alternative order, as in the Rust regex crate); returns the
remainder of the string after the match. -/
def ansiTail (l : Str) : Option Str :=
  match l with
  | [] => none
  | c :: rest =>
    if c = '\x1b' then
      match rest with
      | [] => none
      | d :: r2 =>
        if d = '[' then
          match r2.dropWhile isDigitSemiQ with
          | t :: r3 => if isAsciiLetter t then some r3 else none
          | [] => none
        else if d = ']' then
          match r2.dropWhile Char.isDigit with
          | a :: b :: r3 => if a = ';' ∧ b = ';' then oscLazy r3 else none
          | _ => none
        else if d = ')' then some r2
        else none
    else none

/-- Fuel-driven body of `visible`; each step consumes at least one character,
so fuel equal to the length suffices. -/
def visibleGo : Nat → Str → Str
  | 0, l => l
  | _ + 1, [] => []
  | fuel + 1, c :: rest =>
    match ansiTail (c :: rest) with
    | some r => visibleGo fuel r
    | none => c :: visibleGo fuel rest

/-- `visible(text)`: `ANSIESCAPE_RE.replace_all(text, "")` — removes every
match of the escape regex, scanning left to right. -/
def visible (l : Str) : Str := visibleGo l.length l

/-- `visible_length(text)`: display width of the visible text. -/
def visible_length (l : Str) : Nat := strWidth (visible l)

/-- Match of the ESCAPE regex `\x1b\[[0-9;]*[mK]` anchored at the head of `l`;
returns the matched code and the remainder. -/
def sgrMatch (l : Str) : Option (Str × Str) :=
  match l with
  | c :: d :: r2 =>
    if c = '\x1b' ∧ d = '[' then
      match r2.dropWhile isDigitSemi with
      | t :: r3 =>
        if t = 'm' ∨ t = 'K' then
          some ('\x1b' :: '[' :: (r2.takeWhile isDigitSemi ++ [t]), r3)
        else none
      | [] => none
    else none
  | _ => none

/-- Fuel-driven body of `extract_ansi_codes`. -/
def extractGo : Nat → Str → List Str
  | 0, _ => []
  | _ + 1, [] => []
  | fuel + 1, c :: rest =>
    match sgrMatch (c :: rest) with
    | some cd => cd.1 :: extractGo fuel cd.2
    | none => extractGo fuel rest

/-- `extract_ansi_codes(text)`: all matches of the ESCAPE regex, in order. -/
def extract_ansi_codes (l : Str) : List Str := extractGo l.length l

/-- Rust `str::trim_start_matches("\x1b[")`: repeatedly removes the CSI
introducer from the front. -/
def trimStartCsi : Str → Str
  | a :: b :: rest => if a = '\x1b' ∧ b = '[' then trimStartCsi rest else a :: b :: rest
  | l => l

/-- Rust `str::trim_end_matches(ch)`: removes every trailing occurrence of `ch`. -/
def trimEndChar (ch : Char) (l : Str) : Str :=
  (l.reverse.dropWhile (fun c => c = ch)).reverse

/-- Rust `str::split(';')`: splits on each semicolon; the result is never
empty and keeps empty fields. -/
def splitSemi : Str → List Str
  | [] => [[]]
  | c :: rest =>
    if c = ';' then [] :: splitSemi rest
    else
      match splitSemi rest with
      | h :: t => (c :: h) :: t
      | [] => [[c]]

/-- Rust `str::parse::<u32>()`: optional leading `+`, one or more ASCII
digits, value within `u32` range; anything else is an error (`none`). -/
def parseU32 (s : Str) : Option Nat :=
  let ds := match s with
    | c :: rest => if c = '+' then rest else c :: rest
    | [] => []
  if ds ≠ [] ∧ ds.all Char.isDigit then
    let v := ds.foldl (fun a c => a * 10 + (c.toNat - 48)) 0
    if v < 4294967296 then some v else none
  else none

/-- `parse_sgr_params(code)` from utils.rs: strips the CSI introducer
(repeatedly), all trailing `m`s then all trailing `K`s, returns `[0]` for an
empty body and otherwise parses the `;`-separated fields, silently dropping
unparsable ones. -/
def parse_sgr_params (code : Str) : List Nat :=
  let inner := trimEndChar 'K' (trimEndChar 'm' (trimStartCsi code))
  if inner = [] then [0]
  else (splitSemi inner).filterMap parseU32

/-- Style-state record of `ansi_collapse`: one optional slot per recognised
category plus the ordered passthrough list. -/
structure CState where
  bold : Option Str := none
  dim : Option Str := none
  italic : Option Str := none
  underline : Option Str := none
  strikeout : Option Str := none
  fg : Option Str := none
  bg : Option Str := none
  pass : List Str := []
deriving DecidableEq

/-- One iteration of the category-dispatch loop of `ansi_collapse`
(the `match params[0]` in utils.rs, lines 258-282). -/
def cstep (st : CState) (code : Str) : CState :=
  match parse_sgr_params code with
  | [] => st
  | p :: _ =>
    if p = 0 then st
    else if p = 1 then { st with bold := some code }
    else if p = 2 then { st with dim := some code }
    else if p = 3 then { st with italic := some code }
    else if p = 4 then { st with underline := some code }
    else if p = 9 then { st with strikeout := some code }
    else if p = 22 then { st with bold := none, dim := none }
    else if p = 23 then { st with italic := none }
    else if p = 24 then { st with underline := none }
    else if p = 29 then { st with strikeout := none }
    else if p = 38 then { st with fg := some code }
    else if p = 39 then { st with fg := none }
    else if p = 48 then { st with bg := some code }
    else if p = 49 then { st with bg := none }
    else if (30 ≤ p ∧ p ≤ 37) ∨ (90 ≤ p ∧ p ≤ 97) then { st with fg := some code }
    else if (40 ≤ p ∧ p ≤ 47) ∨ (100 ≤ p ∧ p ≤ 107) then { st with bg := some code }
    else { st with pass := st.pass ++ [code] }

/-- Semicolon join (`attrs.join(";")`). -/
def joinSemi : List Str → Str
  | [] => []
  | [x] => x
  | x :: xs => x ++ ';' :: joinSemi xs

/-- The attribute list collected by `ansi_collapse` before emission, in the
fixed source order bold, dim, italic, underline, strikeout. -/
def attrList (st : CState) : List Str :=
  (if st.bold.isSome then [['1']] else []) ++
  (if st.dim.isSome then [['2']] else []) ++
  (if st.italic.isSome then [['3']] else []) ++
  (if st.underline.isSome then [['4']] else []) ++
  (if st.strikeout.isSome then [['9']] else [])

/-- Emission phase of `ansi_collapse`: one combined attribute code (when any
attribute is set), then foreground, background, passthrough. -/
def collapseEmit (st : CState) : List Str :=
  (if attrList st = [] then []
   else [('\x1b' :: '[' :: joinSemi (attrList st)) ++ ['m']]) ++
  (match st.fg with | some c => [c] | none => []) ++
  (match st.bg with | some c => [c] | none => []) ++
  st.pass

/-- The suffix of `code_list` after the last code whose parameters are `[0]`
(the full list when no such code exists).  The source computes this with
`rposition` and a slice (utils.rs lines 230-240); taking the longest
reset-free suffix is the same operation. -/
def afterLastReset (l : List Str) : List Str :=
  (l.reverse.takeWhile (fun c => !decide (parse_sgr_params c = [0]))).reverse

/-- `ansi_collapse(code_list, _inp)` from utils.rs. -/
def ansi_collapse (code_list : List Str) (inp : Str) : List Str :=
  if code_list = [] then []
  else collapseEmit ((afterLastReset code_list).foldl cstep {})

/-- `is_ansi_code(s)` from utils.rs. -/
def is_ansi_code (s : Str) : Bool :=
  ['\x1b', '['].isPrefixOf s

/-- The CSI-consuming inner loop of `split_text`: pushes characters until an
ASCII-alphabetic terminator (inclusive) or the end of input. -/
def csiBody : Str → Str × Str
  | [] => ([], [])
  | c :: rest =>
    if isAsciiLetter c then ([c], rest)
    else
      let p := csiBody rest
      (c :: p.1, p.2)

/-- The OSC-consuming inner loop of `split_text`: pushes characters until a
BEL, an ESC-backslash pair, or the end of input. -/
def oscBody : Str → Str × Str
  | [] => ([], [])
  | c :: rest =>
    if c = '\x07' then ([c], rest)
    else if c = '\x1b' then
      match rest with
      | d :: rest2 =>
        if d = '\\' then ([c, '\\'], rest2)
        else
          let p := oscBody rest
          (c :: p.1, p.2)
      | [] => ([c], [])
    else
      let p := oscBody rest
      (c :: p.1, p.2)

/-- Fuel-driven main loop of `split_text`: `rem` is the unread input and
`cur` the unit under construction. -/
def splitGo : Nat → Str → Str → List Str
  | 0, _, cur => if cur = [] then [] else [cur]
  | _ + 1, [], cur => if cur = [] then [] else [cur]
  | fuel + 1, c :: rest, cur =>
    if c = '\x1b' then
      match rest with
      | d :: r2 =>
        if d = '[' then
          splitGo fuel (csiBody r2).2 (cur ++ '\x1b' :: '[' :: (csiBody r2).1)
        else if d = ']' then
          splitGo fuel (oscBody r2).2 (cur ++ '\x1b' :: ']' :: (oscBody r2).1)
        else splitGo fuel rest (cur ++ ['\x1b'])
      | [] => splitGo fuel [] (cur ++ ['\x1b'])
    else if rustIsWhitespace c then
      (cur ++ c :: rest.takeWhile rustIsWhitespace) ::
        splitGo fuel (rest.dropWhile rustIsWhitespace) []
    else splitGo fuel rest (cur ++ [c])

/-- `split_text(text)` from text.rs: ANSI-preserving word tokenizer. -/
def split_text (l : Str) : List Str := splitGo l.length l []

/-- The scanning loop of `truncate_to_visible`: copies escape runs (opened by
ESC, closed at the first `m`) verbatim, counts display columns of other
characters, and stops before the first visible character beyond the budget. -/
def truncGo : Str → Bool → Nat → Nat → Str
  | [], _, _, _ => []
  | c :: rest, inEsc, cnt, maxv =>
    if inEsc then c :: truncGo rest (if c = 'm' then false else true) cnt maxv
    else if c = '\x1b' then c :: truncGo rest true cnt maxv
    else if maxv ≤ cnt then []
    else c :: truncGo rest false (cnt + widthOr1 c) maxv

/-- `truncate_to_visible(text, max_visible)` from text.rs. -/
def truncate_to_visible (text : Str) (max_visible : Nat) : Str :=
  truncGo text false 0 max_visible

/-- Result type of `text_wrap`. -/
structure WrappedText where
  lines : List Str
  truncated : Bool
deriving DecidableEq

/-- `WrappedText::empty()`. -/
def WrappedText.empty : WrappedText := ⟨[], false⟩

/-- Rust `str::trim`: strips Unicode whitespace from both ends. -/
def rustTrim (l : Str) : Str :=
  ((l.dropWhile rustIsWhitespace).reverse.dropWhile rustIsWhitespace).reverse

/-- Internal state of the `text_wrap` word loop. -/
structure WrapState where
  lines : List Str
  line : Str
  style : List Str
  truncated : Bool

/-- Line finalisation shared by the wrap loop and the trailing line: prepend
the prefix and, when force-truncate is on and the line overflows, clip to
`width - 1` columns and append the ellipsis.  Returns the line and whether
truncation fired. -/
def finishLine (width : Nat) (ft : Bool) (pre line : Str) : Str × Bool :=
  let lc0 := pre ++ line
  if ft = true ∧ width < visible_length lc0 then
    (truncate_to_visible lc0 (width - 1) ++ [hellip], true)
  else (lc0, false)

/-- Finalisation of the current line when a word does not fit (text.rs lines
188-215): prepend the prefix, truncate when forced, append the resetter, pad
to the target width, and drop the line when it has no visible non-space
content. -/
def finalizeMid (width : Nat) (ft : Bool) (resetter fpre npre : Str)
    (st : WrapState) : WrapState :=
  if st.line ≠ [] then
    let pre := if st.lines = [] then fpre else npre
    let fl := finishLine width ft pre st.line
    let lc2 := fl.1 ++ resetter ++ List.replicate (width - visible_length fl.1) ' '
    { st with
      lines := if rustTrim (visible lc2) ≠ [] then st.lines ++ [lc2] else st.lines
      truncated := st.truncated || fl.2 }
  else st

/-- Word placement of one `text_wrap` iteration (text.rs lines 181-221):
append the word when it fits, otherwise finalise the current line and start
a new line from indent, active style and the word. -/
def placeWord (width indent fpw npw : Nat) (fpre npre : Str) (ft : Bool)
    (resetter : Str) (style1 : List Str) (st : WrapState) (word : Str) : WrapState :=
  let wlen := visible_length word
  let llen := visible_length st.line
  let ew := if st.lines = [] then width - fpw else width - npw
  if 0 < wlen ∧ llen + wlen ≤ ew then
    { st with line := st.line ++ word }
  else if 0 < wlen then
    { finalizeMid width ft resetter fpre npre st with
      line := List.replicate indent ' ' ++ style1.flatten ++ word }
  else st

/-- One full iteration of the `text_wrap` word loop, including the style
bookkeeping around the placement. -/
def wrapStep (width indent fpw npw : Nat) (fpre npre : Str) (ft : Bool)
    (resetter : Str) (st : WrapState) (word : Str) : WrapState :=
  let codes := extract_ansi_codes word
  let style1 :=
    if codes ≠ [] ∧ (codes.headD []).isPrefixOf word then st.style ++ [codes.headD []]
    else st.style
  let placed := placeWord width indent fpw npw fpre npre ft resetter style1 st word
  let styleAfter :=
    style1 ++ (if (codes.headD []).isPrefixOf word then codes.drop 1 else codes)
  { placed with style := ansi_collapse styleAfter [] }

/-- `text_wrap(text, width, indent, first_prefix, next_prefix,
force_truncate, preserve_format)` from text.rs. -/
def text_wrap (text : Str) (width indent : Nat) (fpre npre : Str)
    (force_truncate preserve_format : Bool) : WrappedText :=
  if width = 0 then WrappedText.empty
  else
    let fpw := visible_length fpre
    let npw := visible_length npre
    let words := split_text text
    if words = [] then WrappedText.empty
    else
      let resetter := if preserve_format then ([] : Str) else strOf "\x1b[0m"
      let st := (words ++ [[]]).foldl
        (wrapStep width indent fpw npw fpre npre force_truncate resetter)
        ⟨[], [], [], false⟩
      if st.line ≠ [] ∧ rustTrim (visible st.line) ≠ [] then
        let pre := if st.lines = [] then fpre else npre
        let fl := finishLine width force_truncate pre st.line
        ⟨st.lines ++ [fl.1 ++ resetter], st.truncated || fl.2⟩
      else ⟨st.lines, st.truncated⟩

/-- The claimed reading of `parse_sgr_params` taken verbatim from the spec
sentence: strip the CSI introducer and *the trailing letter*, split the
remaining body on `;`, parse each token as an unsigned integer skipping
unparsable tokens, and return `[0]` when the body is empty.  Used only to
compare the spec's words against the source function, which strips trailing
`m`/`K` characters instead of an arbitrary trailing letter. -/
def parse_sgr_params_claimed (code : Str) : List Nat :=
  let s1 := if ['\x1b', '['].isPrefixOf code then code.drop 2 else code
  let inner :=
    match s1.reverse with
    | t :: r => if isAsciiLetter t then r.reverse else s1
    | [] => s1
  if inner = [] then [0]
  else (splitSemi inner).filterMap parseU32

/-- Escape well-formedness: every ESC in the string begins a complete SGR
sequence `ESC '[' body 'm'` with `body` drawn from `[0-9;]`.  Such strings
contain no OSC sequences, no erase (`K`) codes and no stray escapes, so both
the escape regex and the `ESC..m` scanner of `truncate_to_visible` agree on
where the escapes are. -/
inductive WfSGR : Str → Prop
  | nil : WfSGR []
  | chr {c : Char} {t : Str} : c ≠ '\x1b' → WfSGR t → WfSGR (c :: t)
  | esc {body t : Str} : (∀ c ∈ body, isDigitSemi c = true) → WfSGR t →
      WfSGR ('\x1b' :: '[' :: (body ++ 'm' :: t))

/-- Well-formedness of the colour slots and passthrough list of a collapse
state: every stored code is escape-well-formed. -/
def CWf (st : CState) : Prop :=
  (∀ s, st.fg = some s → WfSGR s) ∧ (∀ s, st.bg = some s → WfSGR s) ∧
    (∀ s ∈ st.pass, WfSGR s)

/-- Invariant maintained across the `text_wrap` word loop: the line under
construction, the tracked style codes and all finished lines are
escape-well-formed, and with force-truncate on every finished line fits in
`width + 1` display columns. -/
def WrapInv (width : Nat) (ft : Bool) (st : WrapState) : Prop :=
  WfSGR st.line ∧ (∀ c ∈ st.style, WfSGR c) ∧ (∀ l ∈ st.lines, WfSGR l) ∧
    (ft = true → 1 ≤ width → ∀ l ∈ st.lines, visible_length l ≤ width + 1)

/-! ## Lemmas and claim theorems -/
theorem oscLazy_length {l r : Str} (h : oscLazy l = some r) : r.length < l.length := by
  induction l with
  | nil => simp [oscLazy] at h
  | cons c rest ih =>
    simp only [oscLazy] at h
    split_ifs at h with h1 h2
    · cases h; simp
    · exact Nat.lt_trans (ih h) (by simp)

theorem length_dropWhile_le (p : Char → Bool) (l : Str) :
    (l.dropWhile p).length ≤ l.length := by
  induction l with
  | nil => simp [List.dropWhile]
  | cons c rest ih =>
    simp only [List.dropWhile]
    split <;> simp <;> omega

theorem ansiTail_length {l r : Str} (h : ansiTail l = some r) : r.length < l.length := by
  match l with
  | [] => simp [ansiTail] at h
  | c :: rest =>
    simp only [ansiTail] at h
    split_ifs at h with hc
    · match rest with
      | [] => simp at h
      | d :: r2 =>
        simp only at h
        split_ifs at h with h1 h2 h3
        · revert h
          split
          · rename_i t r3 heq
            split_ifs with _
            · intro h
              cases h
              have := length_dropWhile_le isDigitSemiQ r2
              rw [heq] at this
              simp at this ⊢
              omega
            · intro h; cases h
          · intro h; cases h
        · revert h
          split
          · rename_i a b r3 heq
            split_ifs with _
            · intro h
              have h3 := oscLazy_length h
              have := length_dropWhile_le Char.isDigit r2
              rw [heq] at this
              simp at this ⊢
              omega
            · intro h; cases h
          · intro h; cases h
        · cases h; simp; omega

theorem visibleGo_nil (f : Nat) : visibleGo f [] = [] := by cases f <;> rfl

theorem visibleGo_congr :
    ∀ n f1 f2 l, (l : Str).length ≤ n → l.length ≤ f1 → l.length ≤ f2 →
      visibleGo f1 l = visibleGo f2 l := by
  intro n
  induction n with
  | zero =>
    intro f1 f2 l hn _ _
    have : l = [] := List.length_eq_zero.mp (Nat.le_zero.mp hn)
    subst this
    rw [visibleGo_nil, visibleGo_nil]
  | succ n ih =>
    intro f1 f2 l hn h1 h2
    match l with
    | [] => rw [visibleGo_nil, visibleGo_nil]
    | c :: rest =>
      simp only [List.length_cons] at hn h1 h2
      obtain ⟨f1', rfl⟩ : ∃ k, f1 = k + 1 := ⟨f1 - 1, by omega⟩
      obtain ⟨f2', rfl⟩ : ∃ k, f2 = k + 1 := ⟨f2 - 1, by omega⟩
      simp only [visibleGo]
      cases h : ansiTail (c :: rest) with
      | some r =>
        have hr := ansiTail_length h
        simp only [List.length_cons] at hr
        exact ih f1' f2' r (by omega) (by omega) (by omega)
      | none =>
        rw [ih f1' f2' rest (by omega) (by omega) (by omega)]

theorem visible_cons_some {c : Char} {rest r : Str} (h : ansiTail (c :: rest) = some r) :
    visible (c :: rest) = visible r := by
  have hr := ansiTail_length h
  simp only [List.length_cons] at hr
  simp only [visible, List.length_cons, visibleGo, h]
  exact visibleGo_congr rest.length _ _ r (by omega) (by omega) (by omega)

theorem visible_cons_none {c : Char} {rest : Str} (h : ansiTail (c :: rest) = none) :
    visible (c :: rest) = c :: visible rest := by
  simp only [visible, List.length_cons, visibleGo, h]

theorem sgrMatch_length {l : Str} {cd : Str × Str} (h : sgrMatch l = some cd) :
    cd.2.length < l.length := by
  match l with
  | [] => simp [sgrMatch] at h
  | [c] => simp [sgrMatch] at h
  | c :: d :: r2 =>
    simp only [sgrMatch] at h
    split_ifs at h with h1
    · revert h
      split
      · rename_i t r3 heq
        split_ifs with _
        · intro h
          cases h
          have := length_dropWhile_le isDigitSemi r2
          rw [heq] at this
          simp at this ⊢
          omega
        · intro h; cases h
      · intro h; cases h

theorem extractGo_nil (f : Nat) : extractGo f [] = [] := by cases f <;> rfl

theorem extractGo_congr :
    ∀ n f1 f2 l, (l : Str).length ≤ n → l.length ≤ f1 → l.length ≤ f2 →
      extractGo f1 l = extractGo f2 l := by
  intro n
  induction n with
  | zero =>
    intro f1 f2 l hn _ _
    have : l = [] := List.length_eq_zero.mp (Nat.le_zero.mp hn)
    subst this
    rw [extractGo_nil, extractGo_nil]
  | succ n ih =>
    intro f1 f2 l hn h1 h2
    match l with
    | [] => rw [extractGo_nil, extractGo_nil]
    | c :: rest =>
      simp only [List.length_cons] at hn h1 h2
      obtain ⟨f1', rfl⟩ : ∃ k, f1 = k + 1 := ⟨f1 - 1, by omega⟩
      obtain ⟨f2', rfl⟩ : ∃ k, f2 = k + 1 := ⟨f2 - 1, by omega⟩
      simp only [extractGo]
      cases h : sgrMatch (c :: rest) with
      | some cd =>
        have hr := sgrMatch_length h
        simp only [List.length_cons] at hr
        exact congrArg _ (ih f1' f2' cd.2 (by omega) (by omega) (by omega))
      | none =>
        exact ih f1' f2' rest (by omega) (by omega) (by omega)

theorem extract_cons_some {c : Char} {rest : Str} {cd : Str × Str}
    (h : sgrMatch (c :: rest) = some cd) :
    extract_ansi_codes (c :: rest) = cd.1 :: extract_ansi_codes cd.2 := by
  have hr := sgrMatch_length h
  simp only [List.length_cons] at hr
  simp only [extract_ansi_codes, List.length_cons, extractGo, h]
  exact congrArg _ (extractGo_congr rest.length _ _ cd.2 (by omega) (by omega) (by omega))

theorem extract_cons_none {c : Char} {rest : Str} (h : sgrMatch (c :: rest) = none) :
    extract_ansi_codes (c :: rest) = extract_ansi_codes rest := by
  simp only [extract_ansi_codes, List.length_cons, extractGo, h]

theorem csiBody_length (l : Str) : (csiBody l).2.length ≤ l.length := by
  induction l with
  | nil => simp [csiBody]
  | cons c rest ih =>
    simp only [csiBody]
    split
    · simp
    · simp only [List.length_cons]
      omega

theorem oscBody_length (l : Str) : (oscBody l).2.length ≤ l.length := by
  induction l with
  | nil => simp [oscBody]
  | cons c rest ih =>
    simp only [oscBody]
    split_ifs with h1 h2
    · simp
    · cases rest with
      | nil => simp
      | cons d rest2 =>
        by_cases hd : d = '\\'
        · simp [hd]
          omega
        · simp only [if_neg hd]
          simp only [List.length_cons] at ih ⊢
          omega
    · simp only [List.length_cons]
      omega

theorem csiBody_append (l : Str) : (csiBody l).1 ++ (csiBody l).2 = l := by
  induction l with
  | nil => simp [csiBody]
  | cons c rest ih =>
    simp only [csiBody]
    split
    · simp
    · simpa using ih

theorem oscBody_append (l : Str) : (oscBody l).1 ++ (oscBody l).2 = l := by
  induction l with
  | nil => simp [oscBody]
  | cons c rest ih =>
    simp only [oscBody]
    split_ifs with h1 h2
    · simp
    · cases rest with
      | nil => simp
      | cons d rest2 =>
        by_cases hd : d = '\\'
        · subst hd
          simp
        · simp only [if_neg hd]
          simpa using ih
    · simpa using ih

theorem splitGo_congr :
    ∀ n f1 f2 rem cur, (rem : Str).length ≤ n → rem.length ≤ f1 → rem.length ≤ f2 →
      splitGo f1 rem cur = splitGo f2 rem cur := by
  intro n
  induction n with
  | zero =>
    intro f1 f2 rem cur hn _ _
    have : rem = [] := List.length_eq_zero.mp (Nat.le_zero.mp hn)
    subst this
    cases f1 <;> cases f2 <;> rfl
  | succ n ih =>
    intro f1 f2 rem cur hn h1 h2
    cases rem with
    | nil => cases f1 <;> cases f2 <;> rfl
    | cons c rest =>
      simp only [List.length_cons] at hn h1 h2
      obtain ⟨f1', rfl⟩ : ∃ k, f1 = k + 1 := ⟨f1 - 1, by omega⟩
      obtain ⟨f2', rfl⟩ : ∃ k, f2 = k + 1 := ⟨f2 - 1, by omega⟩
      simp only [splitGo]
      by_cases hc : c = '\x1b'
      · simp only [if_pos hc]
        cases rest with
        | nil =>
          apply ih <;> simp
        | cons d r2 =>
          have hcs := csiBody_length r2
          have hos := oscBody_length r2
          simp only [List.length_cons] at hn h1 h2
          by_cases hd1 : d = '['
          · simp only [if_pos hd1]
            apply ih <;> omega
          · simp only [if_neg hd1]
            by_cases hd2 : d = ']'
            · simp only [if_pos hd2]
              apply ih <;> omega
            · simp only [if_neg hd2]
              apply ih <;> (simp only [List.length_cons]; omega)
      · simp only [if_neg hc]
        by_cases hw : rustIsWhitespace c = true
        · simp only [hw, if_true]
          have := length_dropWhile_le rustIsWhitespace rest
          exact congrArg _
            (ih f1' f2' (rest.dropWhile rustIsWhitespace) [] (by omega) (by omega) (by omega))
        · simp only [hw, if_false, Bool.false_eq_true]
          apply ih <;> omega

example : visible (strOf "\x1b[1mBold\x1b[0m text") = strOf "Bold text" := by decide
example : visible_length (strOf "\x1b[1mHello\x1b[0m") = 5 := by decide
example : visible_length (strOf "你好") = 4 := by decide
example : extract_ansi_codes (strOf "\x1b[1mBold\x1b[0m") =
    [strOf "\x1b[1m", strOf "\x1b[0m"] := by decide
example : parse_sgr_params (strOf "\x1b[1;4m") = [1, 4] := by decide
example : parse_sgr_params (strOf "\x1b[38;2;255;0;0m") = [38, 2, 255, 0, 0] := by decide
example : parse_sgr_params (strOf "\x1b[m") = [0] := by decide
example : ansi_collapse [strOf "\x1b[1m", strOf "\x1b[1m"] [] = [strOf "\x1b[1m"] := by decide
example : ansi_collapse [strOf "\x1b[38;5;196m"] [] = [strOf "\x1b[38;5;196m"] := by decide

example : split_text (strOf "hello world") = [strOf "hello ", strOf "world"] := by decide
example : split_text (strOf " a") = [strOf " ", strOf "a"] := by decide
example : truncate_to_visible (strOf "hello world") 5 = strOf "hello" := by decide
example : (text_wrap (strOf "hello world") 20 0 [] [] false false).lines.length = 1 := by
  decide


/-! ## Basic facts about visible -/

theorem ansiTail_none_of_ne {c : Char} (rest : Str) (h : c ≠ '\x1b') :
    ansiTail (c :: rest) = none := by
  simp [ansiTail, h]

theorem visible_of_not_mem_esc {l : Str} (h : '\x1b' ∉ l) : visible l = l := by
  induction l with
  | nil => rfl
  | cons c rest ih =>
    have hc : c ≠ '\x1b' := fun e => h (by rw [e]; exact List.mem_cons_self _ _)
    rw [visible_cons_none (ansiTail_none_of_ne rest hc),
      ih (fun m => h (List.mem_cons_of_mem _ m))]

/-- C6 (amended): `visible` is idempotent on every input whose stripped output
contains no residual ESC character.  (In general a second pass can strip
more: removing a match can splice the remaining characters into a new escape
sequence, see the counterexample.) -/
theorem visible_idem_of_clean (s : Str) (h : '\x1b' ∉ visible s) :
    visible (visible s) = visible s :=
  visible_of_not_mem_esc h

/-- Witness for C6 at the concrete input `"a\x1b[1mb"`. -/
theorem visible_idem_of_clean_witness :
    '\x1b' ∉ visible (strOf "a\x1b[1mb") ∧
      visible (visible (strOf "a\x1b[1mb")) = visible (strOf "a\x1b[1mb") :=
  ⟨by decide, visible_idem_of_clean (strOf "a\x1b[1mb") (by decide)⟩

/-- C6 (counterexample): stripping `"\x1b\x1b[0m[0m"` once leaves
`"\x1b[0m"` (the removal splices a new escape sequence together), and a
second pass strips that too, so `visible` is not idempotent. -/
theorem visible_not_idem_cex :
    visible (visible (strOf "\x1b\x1b[0m[0m")) ≠ visible (strOf "\x1b\x1b[0m[0m") := by
  decide

/-! ## C1: text_wrap at width 0 -/

/-- C1 (amended): for width 0, `text_wrap` returns `WrappedText::empty()`:
no lines at all (not the input as a single line) and `truncated = false`. -/
theorem text_wrap_zero_width (text : Str) (indent : Nat) (fpre npre : Str)
    (ft pf : Bool) : text_wrap text 0 indent fpre npre ft pf = WrappedText.empty := by
  simp [text_wrap]

/-- C1 (counterexample): at width 0 the input is not returned as the sole
line; the line list is empty instead. -/
theorem text_wrap_zero_width_cex :
    (text_wrap (strOf "a") 0 0 [] [] false false).lines ≠ [strOf "a"] := by
  decide

/-! ## C3: ansi_collapse is not idempotent -/

/-- C3 (code defect evidence): collapsing `[bold, italic]` once yields the
combined code `ESC[1;3m`; collapsing that output again inspects only the
first SGR parameter, files the whole combined code under `bold`, and emits
`ESC[1m` — the italic attribute is lost, so `ansi_collapse` is not
idempotent, contradicting its documented guarantee of preserving text
attributes. -/
theorem ansi_collapse_not_idempotent :
    ansi_collapse (ansi_collapse [strOf "\x1b[1m", strOf "\x1b[3m"] []) [] ≠
      ansi_collapse [strOf "\x1b[1m", strOf "\x1b[3m"] [] := by
  decide

/-! ## C4: leading whitespace forms its own unit -/

/-- C4 (amended): an input that starts with whitespace tokenizes into the
maximal leading whitespace run as its own head unit (attached to no word),
followed by the tokenization of the rest.  The leading run is present in the
output, not absent. -/
theorem split_text_leading_ws (c : Char) (rest : Str) (h : rustIsWhitespace c = true) :
    split_text (c :: rest) =
      (c :: rest.takeWhile rustIsWhitespace) ::
        split_text (rest.dropWhile rustIsWhitespace) := by
  have hc : c ≠ '\x1b' := by
    intro e
    rw [e] at h
    exact absurd h (by decide)
  simp only [split_text, List.length_cons, splitGo, if_neg hc, if_pos h, List.nil_append]
  have := length_dropWhile_le rustIsWhitespace rest
  rw [splitGo_congr rest.length rest.length (rest.dropWhile rustIsWhitespace).length
    (rest.dropWhile rustIsWhitespace) [] (by omega) (by omega) (by omega)]

/-- Witness for C4 at the concrete input `" a"`. -/
theorem split_text_leading_ws_witness :
    rustIsWhitespace ' ' = true ∧ split_text (strOf " a") = [strOf " ", strOf "a"] :=
  ⟨by decide, (split_text_leading_ws ' ' (strOf "a") (by decide)).trans (by decide)⟩

/-- C4 (counterexample): tokenizing `" a"` yields a unit consisting of the
leading whitespace run, so the leading whitespace is not absent from the
returned list of units. -/
theorem split_text_leading_ws_cex :
    split_text (strOf " a") = [strOf " ", strOf "a"] ∧ strOf " " ∈ split_text (strOf " a") := by
  decide

/-! ## C9 and C10: split_text totality and losslessness -/

theorem splitGo_nil_fuel (f : Nat) (cur : Str) :
    splitGo f [] cur = if cur = [] then [] else [cur] := by
  cases f <;> rfl

theorem splitGo_flatten :
    ∀ fuel rem cur, (rem : Str).length ≤ fuel →
      (splitGo fuel rem cur).flatten = cur ++ rem := by
  intro fuel
  induction fuel with
  | zero =>
    intro rem cur h
    have : rem = [] := List.length_eq_zero.mp (Nat.le_zero.mp h)
    subst this
    by_cases hc : cur = [] <;> simp [splitGo_nil_fuel, hc]
  | succ fuel ih =>
    intro rem cur h
    cases rem with
    | nil => by_cases hc : cur = [] <;> simp [splitGo_nil_fuel, hc]
    | cons c rest =>
      simp only [List.length_cons] at h
      simp only [splitGo]
      by_cases hc : c = '\x1b'
      · simp only [if_pos hc]
        cases rest with
        | nil =>
          rw [ih [] (cur ++ ['\x1b']) (by simp)]
          subst hc
          simp
        | cons d r2 =>
          have hcs := csiBody_length r2
          have hos := oscBody_length r2
          simp only [List.length_cons] at h
          by_cases hd1 : d = '['
          · simp only [if_pos hd1]
            rw [ih _ _ (by omega)]
            subst hc hd1
            simp only [List.append_assoc, List.cons_append, List.nil_append]
            rw [csiBody_append]
          · simp only [if_neg hd1]
            by_cases hd2 : d = ']'
            · simp only [if_pos hd2]
              rw [ih _ _ (by omega)]
              subst hc hd2
              simp only [List.append_assoc, List.cons_append, List.nil_append]
              rw [oscBody_append]
            · simp only [if_neg hd2]
              rw [ih _ _ (by simp only [List.length_cons]; omega)]
              subst hc
              simp
      · simp only [if_neg hc]
        by_cases hw : rustIsWhitespace c = true
        · rw [if_pos hw]
          have hdw := length_dropWhile_le rustIsWhitespace rest
          simp only [List.flatten_cons]
          rw [ih _ [] (by omega)]
          simp only [List.nil_append, List.append_assoc, List.cons_append]
          rw [List.takeWhile_append_dropWhile]
        · rw [if_neg hw]
          rw [ih rest (cur ++ [c]) (by omega)]
          simp

/-- C10: `split_text` is lossless — concatenating the returned units in
order reproduces the input exactly (no bytes lost, nothing reordered). -/
theorem split_text_join_eq (s : Str) : (split_text s).flatten = s := by
  have h := splitGo_flatten s.length s [] le_rfl
  simpa [split_text] using h

theorem splitGo_ne_nil :
    ∀ fuel rem cur, ∀ w ∈ splitGo fuel rem cur, w ≠ [] := by
  intro fuel
  induction fuel with
  | zero =>
    intro rem cur w hw
    simp only [splitGo] at hw
    by_cases hc : cur = []
    · simp [hc] at hw
    · rw [if_neg hc] at hw
      simp at hw
      subst hw
      exact hc
  | succ fuel ih =>
    intro rem cur w hw
    cases rem with
    | nil =>
      rw [splitGo_nil_fuel] at hw
      by_cases hc : cur = []
      · simp [hc] at hw
      · rw [if_neg hc] at hw
        simp at hw
        subst hw
        exact hc
    | cons c rest =>
      simp only [splitGo] at hw
      by_cases hc : c = '\x1b'
      · rw [if_pos hc] at hw
        cases rest with
        | nil => exact ih _ _ w hw
        | cons d r2 =>
          dsimp only at hw
          by_cases hd1 : d = '['
          · rw [if_pos hd1] at hw
            exact ih _ _ w hw
          · rw [if_neg hd1] at hw
            by_cases hd2 : d = ']'
            · rw [if_pos hd2] at hw
              exact ih _ _ w hw
            · rw [if_neg hd2] at hw
              exact ih _ _ w hw
      · rw [if_neg hc] at hw
        by_cases hw2 : rustIsWhitespace c = true
        · rw [if_pos hw2] at hw
          rcases List.mem_cons.mp hw with rfl | hmem
          · simp
          · exact ih _ _ w hmem
        · rw [if_neg hw2] at hw
          exact ih _ _ w hw

theorem length_le_flatten_length :
    ∀ ws : List Str, (∀ w ∈ ws, w ≠ []) → ws.length ≤ ws.flatten.length := by
  intro ws
  induction ws with
  | nil => simp
  | cons w ws ih =>
    intro h
    have hw : w ≠ [] := h w (by simp)
    have h1 : 1 ≤ w.length := List.length_pos.mpr hw
    have h2 := ih (fun x hx => h x (List.mem_cons_of_mem _ hx))
    simp only [List.length_cons, List.flatten_cons, List.length_append]
    omega

/-- C9: `split_text` is total and produces at most one unit per input
character; in particular it terminates on every input, including inputs
ending in an unterminated CSI or OSC escape sequence (the embedding is a
total function and this bound evaluates on every input). -/
theorem split_text_total_bound (s : Str) : (split_text s).length ≤ s.length := by
  have h1 := splitGo_ne_nil s.length s []
  have h2 := length_le_flatten_length (splitGo s.length s []) h1
  have h3 := splitGo_flatten s.length s [] le_rfl
  simp only [split_text]
  calc (splitGo s.length s []).length ≤ (splitGo s.length s []).flatten.length := h2
    _ = s.length := by rw [h3]; simp

/-! ## C7: the last full reset discards everything before it -/

theorem takeWhile_all {α} (p : α → Bool) :
    ∀ l : List α, (∀ c ∈ l, p c = true) → l.takeWhile p = l := by
  intro l
  induction l with
  | nil => simp
  | cons c rest ih =>
    intro h
    rw [List.takeWhile_cons, if_pos (h c (by simp))]
    rw [ih (fun x hx => h x (List.mem_cons_of_mem _ hx))]

theorem takeWhile_all_append {α} (p : α → Bool) (a : List α) (x : α) (b : List α)
    (ha : ∀ c ∈ a, p c = true) (hx : p x = false) :
    (a ++ x :: b).takeWhile p = a := by
  induction a with
  | nil => simp [List.takeWhile_cons, hx]
  | cons c a ih =>
    simp only [List.cons_append, List.takeWhile_cons, if_pos (ha c (by simp))]
    rw [ih (fun y hy => ha y (List.mem_cons_of_mem _ hy))]

theorem afterLastReset_append (xs : List Str) (r : Str) (ys : List Str)
    (hr : parse_sgr_params r = [0]) (hys : ∀ c ∈ ys, parse_sgr_params c ≠ [0]) :
    afterLastReset (xs ++ r :: ys) = ys := by
  unfold afterLastReset
  have hrev : (xs ++ r :: ys).reverse = ys.reverse ++ r :: xs.reverse := by
    simp
  rw [hrev, takeWhile_all_append _ ys.reverse r xs.reverse
    (fun c hc => by
      simp only [Bool.not_eq_true', decide_eq_false_iff_not]
      exact hys c (List.mem_reverse.mp hc))
    (by simp [hr]), List.reverse_reverse]

theorem afterLastReset_no_reset (l : List Str) (h : ∀ c ∈ l, parse_sgr_params c ≠ [0]) :
    afterLastReset l = l := by
  unfold afterLastReset
  rw [takeWhile_all _ l.reverse
    (fun c hc => by
      simp only [Bool.not_eq_true', decide_eq_false_iff_not]
      exact h c (List.mem_reverse.mp hc)), List.reverse_reverse]

/-- C7: `ansi_collapse` discards the last code whose parsed parameters are
`[0]` and every code before it — the result only depends on the codes after
the last full reset, and coincides with collapsing just those codes. -/
theorem ansi_collapse_reset_discard (xs : List Str) (r : Str) (ys : List Str) (inp : Str)
    (hr : parse_sgr_params r = [0]) (hys : ∀ c ∈ ys, parse_sgr_params c ≠ [0]) :
    ansi_collapse (xs ++ r :: ys) inp = ansi_collapse ys inp := by
  unfold ansi_collapse
  rw [if_neg (by simp), afterLastReset_append xs r ys hr hys]
  by_cases hys0 : ys = []
  · subst hys0
    simp
    decide
  · rw [if_neg hys0, afterLastReset_no_reset ys hys]

/-- Witness for C7 at concrete inputs: a bold code before a full reset is
discarded; the collapse equals that of the single code after the reset. -/
theorem ansi_collapse_reset_discard_witness :
    parse_sgr_params (strOf "\x1b[0m") = [0] ∧
      ansi_collapse [strOf "\x1b[1m", strOf "\x1b[0m", strOf "\x1b[31m"] [] =
        ansi_collapse [strOf "\x1b[31m"] [] :=
  ⟨by decide,
    ansi_collapse_reset_discard [strOf "\x1b[1m"] (strOf "\x1b[0m") [strOf "\x1b[31m"] []
      (by decide) (by decide)⟩

/-! ## C8: parse_sgr_params -/

theorem dropWhile_head_false {p : Char → Bool} :
    ∀ l : Str, (∀ c ∈ l, p c = false) → l.dropWhile p = l := by
  intro l h
  cases l with
  | nil => rfl
  | cons c rest => rw [List.dropWhile_cons, if_neg (by simp [h c (by simp)])]

theorem trimStartCsi_ne (l : Str) (h : ∀ c ∈ l, c ≠ '\x1b') : trimStartCsi l = l := by
  match l with
  | [] => rfl
  | [a] => rfl
  | a :: b :: rest =>
    have ha : a ≠ '\x1b' := h a (by simp)
    simp [trimStartCsi, ha]

/-- C8 (amended): on an SGR/erase code of the shape the escape scanner
produces — `ESC '[' body t` with `t` being `m` or `K` and a body free of
`m`, `K` and ESC — `parse_sgr_params` strips the introducer and the
terminating letter, returns `[0]` for an empty body, and otherwise splits
the body on `;` and parses each token as an unsigned integer, silently
skipping unparsable tokens (it never fails).  (For arbitrary strings the
source strips only trailing `m`/`K` characters, not any trailing letter —
see the counterexample.) -/
theorem parse_sgr_params_sgr_code (body : Str) (t : Char)
    (ht : t = 'm' ∨ t = 'K')
    (hb : ∀ c ∈ body, c ≠ 'm' ∧ c ≠ 'K' ∧ c ≠ '\x1b') :
    parse_sgr_params ('\x1b' :: '[' :: (body ++ [t])) =
      if body = [] then [0] else (splitSemi body).filterMap parseU32 := by
  have htE : t ≠ '\x1b' := by
    rcases ht with rfl | rfl <;> decide
  have h1 : trimStartCsi ('\x1b' :: '[' :: (body ++ [t])) = body ++ [t] := by
    have : trimStartCsi ('\x1b' :: '[' :: (body ++ [t])) = trimStartCsi (body ++ [t]) := by
      simp [trimStartCsi]
    rw [this, trimStartCsi_ne _ (fun c hc => by
      rcases List.mem_append.mp hc with h | h
      · exact (hb c h).2.2
      · simp at h
        subst h
        exact htE)]
  have hrev : (body ++ [t]).reverse = t :: body.reverse := by simp
  have hbm : ∀ c ∈ body.reverse, (fun c => decide (c = 'm')) c = false := by
    intro c hc
    simp only [decide_eq_false_iff_not]
    exact (hb c (List.mem_reverse.mp hc)).1
  have hbk : ∀ c ∈ body.reverse, (fun c => decide (c = 'K')) c = false := by
    intro c hc
    simp only [decide_eq_false_iff_not]
    exact (hb c (List.mem_reverse.mp hc)).2.1
  have h2 : trimEndChar 'K' (trimEndChar 'm' (body ++ [t])) = body := by
    rcases ht with rfl | rfl
    · have e1 : trimEndChar 'm' (body ++ ['m']) = body := by
        unfold trimEndChar
        rw [hrev, List.dropWhile_cons, if_pos (by simp), dropWhile_head_false _ hbm,
          List.reverse_reverse]
      rw [e1]
      unfold trimEndChar
      rw [dropWhile_head_false _ hbk, List.reverse_reverse]
    · have e1 : trimEndChar 'm' (body ++ ['K']) = body ++ ['K'] := by
        unfold trimEndChar
        rw [hrev, List.dropWhile_cons, if_neg (by simp), List.reverse_cons,
          List.reverse_reverse]
      rw [e1]
      unfold trimEndChar
      rw [hrev, List.dropWhile_cons, if_pos (by simp), dropWhile_head_false _ hbk,
        List.reverse_reverse]
  simp only [parse_sgr_params, h1, h2]

/-- Witness for C8: a genuine SGR code with an unparsable middle token
(`ESC[1;x;4m`) parses to `[1, 4]` — the bad token is skipped, nothing
fails. -/
theorem parse_sgr_params_sgr_code_witness :
    parse_sgr_params (strOf "\x1b[1;x;4m") = [1, 4] :=
  (parse_sgr_params_sgr_code (strOf "1;x;4") 'm' (Or.inl rfl) (by decide)).trans (by decide)

/-- C8 (counterexample): on `ESC[2J` (a CSI code whose terminator is the
letter `J`) the source keeps the `J` in the body — the lone token `2J` fails
to parse and the result is `[]` — whereas the claimed reading (strip the
trailing letter) would give `[2]`. -/
theorem parse_sgr_params_cex :
    parse_sgr_params (strOf "\x1b[2J") ≠ parse_sgr_params_claimed (strOf "\x1b[2J") := by
  decide

/-! ## WfSGR basics -/

theorem wfSGR_of_noEsc : ∀ l : Str, (∀ c ∈ l, c ≠ '\x1b') → WfSGR l := by
  intro l
  induction l with
  | nil => intro _; exact WfSGR.nil
  | cons c rest ih =>
    intro h
    exact WfSGR.chr (h c (by simp)) (ih (fun x hx => h x (List.mem_cons_of_mem _ hx)))

theorem wfSGR_append {a b : Str} (ha : WfSGR a) (hb : WfSGR b) : WfSGR (a ++ b) := by
  induction ha with
  | nil => simpa using hb
  | chr hne _ ih => exact WfSGR.chr hne ih
  | esc hbody _ ih =>
    rw [List.cons_append, List.cons_append, List.append_assoc, List.cons_append]
    exact WfSGR.esc hbody ih

theorem wfSGR_cons_inv {c : Char} {t : Str} (h : WfSGR (c :: t)) (hne : c ≠ '\x1b') :
    WfSGR t := by
  cases h with
  | chr _ ht => exact ht
  | esc _ _ => exact absurd rfl hne

theorem wfSGR_flatten : ∀ L : List Str, (∀ x ∈ L, WfSGR x) → WfSGR L.flatten := by
  intro L
  induction L with
  | nil => intro _; exact WfSGR.nil
  | cons x L ih =>
    intro h
    rw [List.flatten_cons]
    exact wfSGR_append (h x (by simp)) (ih (fun y hy => h y (List.mem_cons_of_mem _ hy)))

theorem wfSGR_dropWhile_ws : ∀ l : Str, WfSGR l → WfSGR (l.dropWhile rustIsWhitespace) := by
  intro l
  induction l with
  | nil => intro _; exact WfSGR.nil
  | cons c rest ih =>
    intro h
    rw [List.dropWhile_cons]
    by_cases hw : rustIsWhitespace c = true
    · rw [if_pos (by simp [hw])]
      have hc : c ≠ '\x1b' := by
        intro e
        rw [e] at hw
        exact absurd hw (by decide)
      exact ih (wfSGR_cons_inv h hc)
    · rw [if_neg (by simp [hw])]
      exact h

/-! ## digit-and-semicolon character facts -/

theorem mem_singleton_ne {c x : Char} (h : c ≠ x) : ∀ y ∈ [x], y ≠ c := by
  intro y hy
  simp at hy
  subst hy
  exact fun e => h e.symm

theorem digitSemi_ne_of_eval {c x : Char} (h : isDigitSemi c = true)
    (hx : isDigitSemi x = false) : c ≠ x := by
  intro e
  rw [e, hx] at h
  cases h

theorem digitSemiQ_of_digitSemi {c : Char} (h : isDigitSemi c = true) :
    isDigitSemiQ c = true := by
  simp only [isDigitSemi, Bool.or_eq_true] at h
  simp only [isDigitSemiQ, Bool.or_eq_true]
  tauto

theorem isDigit_toNat {c : Char} (h : c.isDigit = true) :
    48 ≤ c.toNat ∧ c.toNat ≤ 57 := by
  simp only [Char.isDigit, Bool.and_eq_true, decide_eq_true_eq] at h
  obtain ⟨h1, h2⟩ := h
  exact ⟨h1, h2⟩

theorem digitSemi_not_letter {c : Char} (h : isDigitSemi c = true) :
    isAsciiLetter c = false := by
  simp only [isDigitSemi, Bool.or_eq_true, decide_eq_true_eq] at h
  rcases h with h | h
  · have := isDigit_toNat h
    simp only [isAsciiLetter, Bool.or_eq_false_iff, Bool.and_eq_false_iff,
      decide_eq_false_iff_not]
    omega
  · subst h
    decide

/-! ## visible on well-formed strings -/

theorem dropWhile_all_append {α} (p : α → Bool) (a : List α) (x : α) (b : List α)
    (ha : ∀ c ∈ a, p c = true) (hx : p x = false) :
    (a ++ x :: b).dropWhile p = x :: b := by
  induction a with
  | nil => simp [List.dropWhile_cons, hx]
  | cons c a ih =>
    simp only [List.cons_append, List.dropWhile_cons, if_pos (ha c (by simp))]
    exact ih (fun y hy => ha y (List.mem_cons_of_mem _ hy))

theorem ansiTail_sgr {body t : Str} (hbody : ∀ c ∈ body, isDigitSemi c = true) :
    ansiTail ('\x1b' :: '[' :: (body ++ 'm' :: t)) = some t := by
  have h1 := dropWhile_all_append isDigitSemiQ body 'm' t
    (fun c hc => digitSemiQ_of_digitSemi (hbody c hc)) (by decide)
  simp only [ansiTail, h1]
  simp [isAsciiLetter]

theorem visible_esc {body t : Str} (hbody : ∀ c ∈ body, isDigitSemi c = true) :
    visible ('\x1b' :: '[' :: (body ++ 'm' :: t)) = visible t :=
  visible_cons_some (ansiTail_sgr hbody)

theorem visible_append_of_wf {a : Str} (ha : WfSGR a) :
    ∀ b : Str, visible (a ++ b) = visible a ++ visible b := by
  induction ha with
  | nil => intro b; simp [visible, visibleGo_nil]
  | chr hne ht ih =>
    intro b
    rename_i c t
    rw [List.cons_append, visible_cons_none (ansiTail_none_of_ne _ hne),
      visible_cons_none (ansiTail_none_of_ne _ hne), ih b, List.cons_append]
  | esc hbody ht ih =>
    intro b
    rename_i body t
    have hshape : ('\x1b' :: '[' :: (body ++ 'm' :: t)) ++ b =
        '\x1b' :: '[' :: (body ++ 'm' :: (t ++ b)) := by
      simp
    rw [hshape, visible_esc hbody, visible_esc hbody, ih b]

theorem strWidth_append (a b : Str) : strWidth (a ++ b) = strWidth a + strWidth b := by
  simp [strWidth]

theorem visible_length_append_of_wf {a : Str} (ha : WfSGR a) (b : Str) :
    visible_length (a ++ b) = visible_length a + visible_length b := by
  rw [visible_length, visible_append_of_wf ha, strWidth_append]
  rfl

theorem esc_not_mem_visible_of_wf {l : Str} (h : WfSGR l) : '\x1b' ∉ visible l := by
  induction h with
  | nil => simp [visible, visibleGo_nil]
  | chr hne ht ih =>
    rename_i c t
    rw [visible_cons_none (ansiTail_none_of_ne _ hne)]
    intro hmem
    rcases List.mem_cons.mp hmem with e | e
    · exact hne e.symm
    · exact ih e
  | esc hbody ht ih =>
    rename_i body t
    rw [visible_esc hbody]
    exact ih

/-! ## extract_ansi_codes on well-formed strings -/

theorem sgrMatch_sgr {body t : Str} (hbody : ∀ c ∈ body, isDigitSemi c = true) :
    sgrMatch ('\x1b' :: '[' :: (body ++ 'm' :: t)) =
      some ('\x1b' :: '[' :: (body ++ ['m']), t) := by
  have h1 := dropWhile_all_append isDigitSemi body 'm' t hbody (by decide)
  have h2 := takeWhile_all_append isDigitSemi body 'm' t hbody (by decide)
  simp only [sgrMatch, h1, h2]
  simp

theorem sgrMatch_none_of_ne {c : Char} (rest : Str) (h : c ≠ '\x1b') :
    sgrMatch (c :: rest) = none := by
  cases rest with
  | nil => rfl
  | cons d r2 => simp [sgrMatch, h]

theorem wfSGR_code {body : Str} (hbody : ∀ c ∈ body, isDigitSemi c = true) :
    WfSGR ('\x1b' :: '[' :: (body ++ ['m'])) := by
  have : body ++ ['m'] = body ++ 'm' :: ([] : Str) := rfl
  rw [this]
  exact WfSGR.esc hbody WfSGR.nil

theorem extract_wf {l : Str} (h : WfSGR l) :
    ∀ code ∈ extract_ansi_codes l, WfSGR code := by
  induction h with
  | nil =>
    intro code hc
    simp [extract_ansi_codes, extractGo_nil] at hc
  | chr hne ht ih =>
    rename_i c t
    rw [extract_cons_none (sgrMatch_none_of_ne _ hne)]
    exact ih
  | esc hbody ht ih =>
    rename_i body t
    rw [extract_cons_some (sgrMatch_sgr hbody)]
    intro code hc
    rcases List.mem_cons.mp hc with e | e
    · subst e
      exact wfSGR_code hbody
    · exact ih code e

/-! ## split_text preserves well-formedness -/

theorem csiBody_sgr {body t : Str} (hbody : ∀ c ∈ body, isDigitSemi c = true) :
    csiBody (body ++ 'm' :: t) = (body ++ ['m'], t) := by
  induction body with
  | nil => simp [csiBody, isAsciiLetter]
  | cons c body ih =>
    have hc : isAsciiLetter c = false := digitSemi_not_letter (hbody c (by simp))
    simp only [List.cons_append, csiBody, hc, Bool.false_eq_true, if_false,
      List.append_eq, ih (fun x hx => hbody x (List.mem_cons_of_mem _ hx))]

theorem mem_takeWhile_ws {c : Char} {l : Str}
    (h : c ∈ l.takeWhile rustIsWhitespace) : rustIsWhitespace c = true := by
  induction l with
  | nil => simp [List.takeWhile] at h
  | cons x rest ih =>
    rw [List.takeWhile_cons] at h
    by_cases hx : rustIsWhitespace x = true
    · rw [if_pos (by simp [hx])] at h
      rcases List.mem_cons.mp h with e | e
      · subst e; exact hx
      · exact ih e
    · rw [if_neg (by simp [hx])] at h
      simp at h

theorem ws_ne_esc {c : Char} (h : rustIsWhitespace c = true) : c ≠ '\x1b' := by
  intro e
  rw [e] at h
  exact absurd h (by decide)

theorem splitGo_wf :
    ∀ fuel rem cur, (rem : Str).length ≤ fuel → WfSGR rem → WfSGR cur →
      ∀ w ∈ splitGo fuel rem cur, WfSGR w := by
  intro fuel
  induction fuel with
  | zero =>
    intro rem cur hlen hrem hcur w hw
    simp only [splitGo] at hw
    by_cases hc : cur = []
    · simp [hc] at hw
    · rw [if_neg hc] at hw
      simp at hw
      subst hw
      exact hcur
  | succ fuel ih =>
    intro rem cur hlen hrem hcur w hw
    cases rem with
    | nil =>
      rw [splitGo_nil_fuel] at hw
      by_cases hc : cur = []
      · simp [hc] at hw
      · rw [if_neg hc] at hw
        simp at hw
        subst hw
        exact hcur
    | cons c rest =>
      simp only [List.length_cons] at hlen
      simp only [splitGo] at hw
      by_cases hc : c = '\x1b'
      · rw [if_pos hc] at hw
        subst hc
        cases hrem with
        | chr hne _ => exact absurd rfl hne
        | esc hbody ht =>
          rename_i body t
          dsimp only at hw
          rw [if_pos rfl] at hw
          rw [csiBody_sgr hbody] at hw
          have hlen2 : t.length ≤ fuel := by
            simp only [List.length_cons, List.length_append] at hlen ⊢
            omega
          exact ih t _ hlen2 ht
            (wfSGR_append hcur (wfSGR_code hbody)) w hw
      · rw [if_neg hc] at hw
        have hrest : WfSGR rest := wfSGR_cons_inv hrem hc
        by_cases hws : rustIsWhitespace c = true
        · rw [if_pos hws] at hw
          rcases List.mem_cons.mp hw with e | e
          · subst e
            refine wfSGR_append hcur (wfSGR_of_noEsc _ ?_)
            intro x hx
            rcases List.mem_cons.mp hx with e | e
            · subst e; exact ws_ne_esc hws
            · exact ws_ne_esc (mem_takeWhile_ws e)
          · have := length_dropWhile_le rustIsWhitespace rest
            exact ih _ [] (by omega) (wfSGR_dropWhile_ws rest hrest) WfSGR.nil w e
        · rw [if_neg hws] at hw
          exact ih rest _ (by omega) hrest
            (wfSGR_append hcur (wfSGR_of_noEsc [c] (by
              intro x hx
              simp at hx
              subst hx
              exact hc))) w hw

theorem split_text_wf {s : Str} (h : WfSGR s) : ∀ w ∈ split_text s, WfSGR w :=
  splitGo_wf s.length s [] le_rfl h WfSGR.nil

/-! ## ansi_collapse preserves well-formedness -/

theorem mem_of_mem_takeWhile {α} {p : α → Bool} {x : α} :
    ∀ {l : List α}, x ∈ l.takeWhile p → x ∈ l := by
  intro l
  induction l with
  | nil => intro h; simp [List.takeWhile] at h
  | cons c rest ih =>
    intro h
    rw [List.takeWhile_cons] at h
    by_cases hc : p c = true
    · rw [if_pos (by simp [hc])] at h
      rcases List.mem_cons.mp h with e | e
      · simp [e]
      · exact List.mem_cons_of_mem _ (ih e)
    · rw [if_neg (by simp [hc])] at h
      simp at h

theorem mem_afterLastReset {c : Str} {l : List Str} (h : c ∈ afterLastReset l) :
    c ∈ l := by
  unfold afterLastReset at h
  rw [List.mem_reverse] at h
  exact List.mem_reverse.mp (mem_of_mem_takeWhile h)

theorem cstep_fg {st : CState} {code : Str}
    (hfg : ∀ s, st.fg = some s → WfSGR s) (hc : WfSGR code) :
    ∀ s, (cstep st code).fg = some s → WfSGR s := by
  intro s hs
  unfold cstep at hs
  cases hp : parse_sgr_params code with
  | nil =>
    rw [hp] at hs
    first
      | exact hfg s hs
      | (injection hs with e; subst e; exact hc)
      | (exact absurd hs (by simp))
  | cons p tail =>
    rw [hp] at hs
    dsimp only at hs
    by_cases h0 : p = 0
    · rw [if_pos h0] at hs
      first
        | exact hfg s hs
        | (injection hs with e; subst e; exact hc)
        | (exact absurd hs (by simp))
    rw [if_neg h0] at hs
    by_cases h1 : p = 1
    · rw [if_pos h1] at hs
      first
        | exact hfg s hs
        | (injection hs with e; subst e; exact hc)
        | (exact absurd hs (by simp))
    rw [if_neg h1] at hs
    by_cases h2 : p = 2
    · rw [if_pos h2] at hs
      first
        | exact hfg s hs
        | (injection hs with e; subst e; exact hc)
        | (exact absurd hs (by simp))
    rw [if_neg h2] at hs
    by_cases h3 : p = 3
    · rw [if_pos h3] at hs
      first
        | exact hfg s hs
        | (injection hs with e; subst e; exact hc)
        | (exact absurd hs (by simp))
    rw [if_neg h3] at hs
    by_cases h4 : p = 4
    · rw [if_pos h4] at hs
      first
        | exact hfg s hs
        | (injection hs with e; subst e; exact hc)
        | (exact absurd hs (by simp))
    rw [if_neg h4] at hs
    by_cases h5 : p = 9
    · rw [if_pos h5] at hs
      first
        | exact hfg s hs
        | (injection hs with e; subst e; exact hc)
        | (exact absurd hs (by simp))
    rw [if_neg h5] at hs
    by_cases h6 : p = 22
    · rw [if_pos h6] at hs
      first
        | exact hfg s hs
        | (injection hs with e; subst e; exact hc)
        | (exact absurd hs (by simp))
    rw [if_neg h6] at hs
    by_cases h7 : p = 23
    · rw [if_pos h7] at hs
      first
        | exact hfg s hs
        | (injection hs with e; subst e; exact hc)
        | (exact absurd hs (by simp))
    rw [if_neg h7] at hs
    by_cases h8 : p = 24
    · rw [if_pos h8] at hs
      first
        | exact hfg s hs
        | (injection hs with e; subst e; exact hc)
        | (exact absurd hs (by simp))
    rw [if_neg h8] at hs
    by_cases h9 : p = 29
    · rw [if_pos h9] at hs
      first
        | exact hfg s hs
        | (injection hs with e; subst e; exact hc)
        | (exact absurd hs (by simp))
    rw [if_neg h9] at hs
    by_cases h10 : p = 38
    · rw [if_pos h10] at hs
      first
        | exact hfg s hs
        | (injection hs with e; subst e; exact hc)
        | (exact absurd hs (by simp))
    rw [if_neg h10] at hs
    by_cases h11 : p = 39
    · rw [if_pos h11] at hs
      first
        | exact hfg s hs
        | (injection hs with e; subst e; exact hc)
        | (exact absurd hs (by simp))
    rw [if_neg h11] at hs
    by_cases h12 : p = 48
    · rw [if_pos h12] at hs
      first
        | exact hfg s hs
        | (injection hs with e; subst e; exact hc)
        | (exact absurd hs (by simp))
    rw [if_neg h12] at hs
    by_cases h13 : p = 49
    · rw [if_pos h13] at hs
      first
        | exact hfg s hs
        | (injection hs with e; subst e; exact hc)
        | (exact absurd hs (by simp))
    rw [if_neg h13] at hs
    by_cases h14 : (30 ≤ p ∧ p ≤ 37) ∨ (90 ≤ p ∧ p ≤ 97)
    · rw [if_pos h14] at hs
      first
        | exact hfg s hs
        | (injection hs with e; subst e; exact hc)
        | (exact absurd hs (by simp))
    rw [if_neg h14] at hs
    by_cases h15 : (40 ≤ p ∧ p ≤ 47) ∨ (100 ≤ p ∧ p ≤ 107)
    · rw [if_pos h15] at hs
      first
        | exact hfg s hs
        | (injection hs with e; subst e; exact hc)
        | (exact absurd hs (by simp))
    rw [if_neg h15] at hs
    first
      | exact hfg s hs
      | (injection hs with e; subst e; exact hc)
      | (exact absurd hs (by simp))

theorem cstep_bg {st : CState} {code : Str}
    (hbg : ∀ s, st.bg = some s → WfSGR s) (hc : WfSGR code) :
    ∀ s, (cstep st code).bg = some s → WfSGR s := by
  intro s hs
  unfold cstep at hs
  cases hp : parse_sgr_params code with
  | nil =>
    rw [hp] at hs
    first
      | exact hbg s hs
      | (injection hs with e; subst e; exact hc)
      | (exact absurd hs (by simp))
  | cons p tail =>
    rw [hp] at hs
    dsimp only at hs
    by_cases h0 : p = 0
    · rw [if_pos h0] at hs
      first
        | exact hbg s hs
        | (injection hs with e; subst e; exact hc)
        | (exact absurd hs (by simp))
    rw [if_neg h0] at hs
    by_cases h1 : p = 1
    · rw [if_pos h1] at hs
      first
        | exact hbg s hs
        | (injection hs with e; subst e; exact hc)
        | (exact absurd hs (by simp))
    rw [if_neg h1] at hs
    by_cases h2 : p = 2
    · rw [if_pos h2] at hs
      first
        | exact hbg s hs
        | (injection hs with e; subst e; exact hc)
        | (exact absurd hs (by simp))
    rw [if_neg h2] at hs
    by_cases h3 : p = 3
    · rw [if_pos h3] at hs
      first
        | exact hbg s hs
        | (injection hs with e; subst e; exact hc)
        | (exact absurd hs (by simp))
    rw [if_neg h3] at hs
    by_cases h4 : p = 4
    · rw [if_pos h4] at hs
      first
        | exact hbg s hs
        | (injection hs with e; subst e; exact hc)
        | (exact absurd hs (by simp))
    rw [if_neg h4] at hs
    by_cases h5 : p = 9
    · rw [if_pos h5] at hs
      first
        | exact hbg s hs
        | (injection hs with e; subst e; exact hc)
        | (exact absurd hs (by simp))
    rw [if_neg h5] at hs
    by_cases h6 : p = 22
    · rw [if_pos h6] at hs
      first
        | exact hbg s hs
        | (injection hs with e; subst e; exact hc)
        | (exact absurd hs (by simp))
    rw [if_neg h6] at hs
    by_cases h7 : p = 23
    · rw [if_pos h7] at hs
      first
        | exact hbg s hs
        | (injection hs with e; subst e; exact hc)
        | (exact absurd hs (by simp))
    rw [if_neg h7] at hs
    by_cases h8 : p = 24
    · rw [if_pos h8] at hs
      first
        | exact hbg s hs
        | (injection hs with e; subst e; exact hc)
        | (exact absurd hs (by simp))
    rw [if_neg h8] at hs
    by_cases h9 : p = 29
    · rw [if_pos h9] at hs
      first
        | exact hbg s hs
        | (injection hs with e; subst e; exact hc)
        | (exact absurd hs (by simp))
    rw [if_neg h9] at hs
    by_cases h10 : p = 38
    · rw [if_pos h10] at hs
      first
        | exact hbg s hs
        | (injection hs with e; subst e; exact hc)
        | (exact absurd hs (by simp))
    rw [if_neg h10] at hs
    by_cases h11 : p = 39
    · rw [if_pos h11] at hs
      first
        | exact hbg s hs
        | (injection hs with e; subst e; exact hc)
        | (exact absurd hs (by simp))
    rw [if_neg h11] at hs
    by_cases h12 : p = 48
    · rw [if_pos h12] at hs
      first
        | exact hbg s hs
        | (injection hs with e; subst e; exact hc)
        | (exact absurd hs (by simp))
    rw [if_neg h12] at hs
    by_cases h13 : p = 49
    · rw [if_pos h13] at hs
      first
        | exact hbg s hs
        | (injection hs with e; subst e; exact hc)
        | (exact absurd hs (by simp))
    rw [if_neg h13] at hs
    by_cases h14 : (30 ≤ p ∧ p ≤ 37) ∨ (90 ≤ p ∧ p ≤ 97)
    · rw [if_pos h14] at hs
      first
        | exact hbg s hs
        | (injection hs with e; subst e; exact hc)
        | (exact absurd hs (by simp))
    rw [if_neg h14] at hs
    by_cases h15 : (40 ≤ p ∧ p ≤ 47) ∨ (100 ≤ p ∧ p ≤ 107)
    · rw [if_pos h15] at hs
      first
        | exact hbg s hs
        | (injection hs with e; subst e; exact hc)
        | (exact absurd hs (by simp))
    rw [if_neg h15] at hs
    first
      | exact hbg s hs
      | (injection hs with e; subst e; exact hc)
      | (exact absurd hs (by simp))

theorem cstep_pass {st : CState} {code : Str}
    (hpass : ∀ s ∈ st.pass, WfSGR s) (hc : WfSGR code) :
    ∀ s ∈ (cstep st code).pass, WfSGR s := by
  intro s hs
  unfold cstep at hs
  cases hp : parse_sgr_params code with
  | nil =>
    rw [hp] at hs
    first
      | exact hpass s hs
      | (rcases List.mem_append.mp hs with e | e
         · exact hpass s e
         · (simp at e; subst e; exact hc))
  | cons p tail =>
    rw [hp] at hs
    dsimp only at hs
    by_cases h0 : p = 0
    · rw [if_pos h0] at hs
      first
        | exact hpass s hs
        | (rcases List.mem_append.mp hs with e | e
           · exact hpass s e
           · (simp at e; subst e; exact hc))
    rw [if_neg h0] at hs
    by_cases h1 : p = 1
    · rw [if_pos h1] at hs
      first
        | exact hpass s hs
        | (rcases List.mem_append.mp hs with e | e
           · exact hpass s e
           · (simp at e; subst e; exact hc))
    rw [if_neg h1] at hs
    by_cases h2 : p = 2
    · rw [if_pos h2] at hs
      first
        | exact hpass s hs
        | (rcases List.mem_append.mp hs with e | e
           · exact hpass s e
           · (simp at e; subst e; exact hc))
    rw [if_neg h2] at hs
    by_cases h3 : p = 3
    · rw [if_pos h3] at hs
      first
        | exact hpass s hs
        | (rcases List.mem_append.mp hs with e | e
           · exact hpass s e
           · (simp at e; subst e; exact hc))
    rw [if_neg h3] at hs
    by_cases h4 : p = 4
    · rw [if_pos h4] at hs
      first
        | exact hpass s hs
        | (rcases List.mem_append.mp hs with e | e
           · exact hpass s e
           · (simp at e; subst e; exact hc))
    rw [if_neg h4] at hs
    by_cases h5 : p = 9
    · rw [if_pos h5] at hs
      first
        | exact hpass s hs
        | (rcases List.mem_append.mp hs with e | e
           · exact hpass s e
           · (simp at e; subst e; exact hc))
    rw [if_neg h5] at hs
    by_cases h6 : p = 22
    · rw [if_pos h6] at hs
      first
        | exact hpass s hs
        | (rcases List.mem_append.mp hs with e | e
           · exact hpass s e
           · (simp at e; subst e; exact hc))
    rw [if_neg h6] at hs
    by_cases h7 : p = 23
    · rw [if_pos h7] at hs
      first
        | exact hpass s hs
        | (rcases List.mem_append.mp hs with e | e
           · exact hpass s e
           · (simp at e; subst e; exact hc))
    rw [if_neg h7] at hs
    by_cases h8 : p = 24
    · rw [if_pos h8] at hs
      first
        | exact hpass s hs
        | (rcases List.mem_append.mp hs with e | e
           · exact hpass s e
           · (simp at e; subst e; exact hc))
    rw [if_neg h8] at hs
    by_cases h9 : p = 29
    · rw [if_pos h9] at hs
      first
        | exact hpass s hs
        | (rcases List.mem_append.mp hs with e | e
           · exact hpass s e
           · (simp at e; subst e; exact hc))
    rw [if_neg h9] at hs
    by_cases h10 : p = 38
    · rw [if_pos h10] at hs
      first
        | exact hpass s hs
        | (rcases List.mem_append.mp hs with e | e
           · exact hpass s e
           · (simp at e; subst e; exact hc))
    rw [if_neg h10] at hs
    by_cases h11 : p = 39
    · rw [if_pos h11] at hs
      first
        | exact hpass s hs
        | (rcases List.mem_append.mp hs with e | e
           · exact hpass s e
           · (simp at e; subst e; exact hc))
    rw [if_neg h11] at hs
    by_cases h12 : p = 48
    · rw [if_pos h12] at hs
      first
        | exact hpass s hs
        | (rcases List.mem_append.mp hs with e | e
           · exact hpass s e
           · (simp at e; subst e; exact hc))
    rw [if_neg h12] at hs
    by_cases h13 : p = 49
    · rw [if_pos h13] at hs
      first
        | exact hpass s hs
        | (rcases List.mem_append.mp hs with e | e
           · exact hpass s e
           · (simp at e; subst e; exact hc))
    rw [if_neg h13] at hs
    by_cases h14 : (30 ≤ p ∧ p ≤ 37) ∨ (90 ≤ p ∧ p ≤ 97)
    · rw [if_pos h14] at hs
      first
        | exact hpass s hs
        | (rcases List.mem_append.mp hs with e | e
           · exact hpass s e
           · (simp at e; subst e; exact hc))
    rw [if_neg h14] at hs
    by_cases h15 : (40 ≤ p ∧ p ≤ 47) ∨ (100 ≤ p ∧ p ≤ 107)
    · rw [if_pos h15] at hs
      first
        | exact hpass s hs
        | (rcases List.mem_append.mp hs with e | e
           · exact hpass s e
           · (simp at e; subst e; exact hc))
    rw [if_neg h15] at hs
    first
      | exact hpass s hs
      | (rcases List.mem_append.mp hs with e | e
         · exact hpass s e
         · (simp at e; subst e; exact hc))

theorem cstep_cwf {st : CState} {code : Str} (h : CWf st) (hc : WfSGR code) :
    CWf (cstep st code) := by
  obtain ⟨hfg, hbg, hpass⟩ := h
  exact ⟨cstep_fg hfg hc, cstep_bg hbg hc, cstep_pass hpass hc⟩

theorem foldl_cstep_cwf :
    ∀ (L : List Str) (st : CState), CWf st → (∀ c ∈ L, WfSGR c) →
      CWf (L.foldl cstep st) := by
  intro L
  induction L with
  | nil => intro st h _; exact h
  | cons c L ih =>
    intro st h hL
    exact ih (cstep st c) (cstep_cwf h (hL c (by simp)))
      (fun x hx => hL x (List.mem_cons_of_mem _ hx))

theorem joinSemi_digitSemi :
    ∀ L : List Str, (∀ a ∈ L, ∀ c ∈ a, isDigitSemi c = true) →
      ∀ c ∈ joinSemi L, isDigitSemi c = true := by
  intro L
  induction L with
  | nil => intro _ c hc; simp [joinSemi] at hc
  | cons a L ih =>
    intro h c hc
    cases L with
    | nil =>
      simp only [joinSemi] at hc
      exact h a (by simp) c hc
    | cons b L' =>
      simp only [joinSemi] at hc
      rcases List.mem_append.mp hc with e | e
      · exact h a (by simp) c e
      · rcases List.mem_cons.mp e with e2 | e2
        · subst e2; decide
        · exact ih (fun x hx => h x (List.mem_cons_of_mem _ hx)) c
            (by simpa [joinSemi] using e2)

theorem attrList_digitSemi (st : CState) :
    ∀ a ∈ attrList st, ∀ c ∈ a, isDigitSemi c = true := by
  intro a ha c hc
  unfold attrList at ha
  simp only [List.mem_append] at ha
  rcases ha with (((h | h) | h) | h) | h <;>
    split_ifs at h <;>
    first
      | (simp at h; done)
      | (simp at h; subst h; simp at hc; subst hc; decide)

theorem collapseEmit_wf {st : CState} (h : CWf st) :
    ∀ c ∈ collapseEmit st, WfSGR c := by
  obtain ⟨hfg, hbg, hpass⟩ := h
  intro c hc
  unfold collapseEmit at hc
  simp only [List.mem_append] at hc
  rcases hc with ((h1 | h1) | h1) | h1
  · by_cases ha : attrList st = []
    · rw [if_pos ha] at h1
      simp at h1
    · rw [if_neg ha] at h1
      simp at h1
      subst h1
      first
        | exact wfSGR_code (joinSemi_digitSemi _ (attrList_digitSemi st))
        | (rw [show (('\x1b' :: '[' :: joinSemi (attrList st)) ++ ['m'] : Str) =
              '\x1b' :: '[' :: (joinSemi (attrList st) ++ ['m']) by simp]
           exact wfSGR_code (joinSemi_digitSemi _ (attrList_digitSemi st)))
  · cases hst : st.fg with
    | none =>
      rw [hst] at h1
      simp at h1
    | some s =>
      rw [hst] at h1
      simp at h1
      subst h1
      exact hfg _ hst
  · cases hst : st.bg with
    | none =>
      rw [hst] at h1
      simp at h1
    | some s =>
      rw [hst] at h1
      simp at h1
      subst h1
      exact hbg _ hst
  · exact hpass c h1

theorem ansi_collapse_wf {L : List Str} (h : ∀ c ∈ L, WfSGR c) :
    ∀ c ∈ ansi_collapse L [], WfSGR c := by
  unfold ansi_collapse
  by_cases hL : L = []
  · rw [if_pos hL]
    intro c hc
    simp at hc
  · rw [if_neg hL]
    exact collapseEmit_wf
      (foldl_cstep_cwf _ {} ⟨fun s hs => by simp at hs, fun s hs => by simp at hs,
        fun s hs => by simp at hs⟩
        (fun c hc => h c (mem_afterLastReset hc)))

/-! ## truncate_to_visible on well-formed strings -/

theorem width0_le_widthOr1 (c : Char) : width0 c ≤ widthOr1 c := by
  cases h : charWidthOpt c <;> simp [width0, widthOr1, h]

theorem widthOr1_le_two (c : Char) : widthOr1 c ≤ 2 := by
  unfold widthOr1 charWidthOpt
  dsimp only
  split_ifs <;> simp

theorem visible_length_nil : visible_length [] = 0 := rfl

theorem visible_length_cons_ne {c : Char} {X : Str} (h : c ≠ '\x1b') :
    visible_length (c :: X) = width0 c + visible_length X := by
  rw [visible_length, visible_cons_none (ansiTail_none_of_ne _ h)]
  simp [strWidth, visible_length]

theorem visible_length_esc {body t : Str} (hbody : ∀ c ∈ body, isDigitSemi c = true) :
    visible_length ('\x1b' :: '[' :: (body ++ 'm' :: t)) = visible_length t := by
  rw [visible_length, visible_esc hbody]
  rfl

theorem truncGo_inEsc_body {body : Str} (hbody : ∀ c ∈ body, isDigitSemi c = true) :
    ∀ t cnt maxv, truncGo (body ++ 'm' :: t) true cnt maxv =
      body ++ 'm' :: truncGo t false cnt maxv := by
  induction body with
  | nil =>
    intro t cnt maxv
    rfl
  | cons c body ih =>
    intro t cnt maxv
    have hc : c ≠ 'm' := digitSemi_ne_of_eval (hbody c (by simp)) (by decide)
    have step : truncGo (c :: (body ++ 'm' :: t)) true cnt maxv =
        c :: truncGo (body ++ 'm' :: t) (if c = 'm' then false else true) cnt maxv := rfl
    rw [List.cons_append, step, if_neg hc,
      ih (fun x hx => hbody x (List.mem_cons_of_mem _ hx)), List.cons_append]

theorem truncGo_esc {body t : Str} (hbody : ∀ c ∈ body, isDigitSemi c = true)
    (cnt maxv : Nat) :
    truncGo ('\x1b' :: '[' :: (body ++ 'm' :: t)) false cnt maxv =
      '\x1b' :: '[' :: (body ++ 'm' :: truncGo t false cnt maxv) := by
  have s1 : truncGo ('\x1b' :: '[' :: (body ++ 'm' :: t)) false cnt maxv =
      '\x1b' :: truncGo ('[' :: (body ++ 'm' :: t)) true cnt maxv := rfl
  have s2 : truncGo ('[' :: (body ++ 'm' :: t)) true cnt maxv =
      '[' :: truncGo (body ++ 'm' :: t) true cnt maxv := rfl
  rw [s1, s2, truncGo_inEsc_body hbody]

theorem truncGo_wf {l : Str} (h : WfSGR l) (maxv : Nat) :
    ∀ cnt, WfSGR (truncGo l false cnt maxv) := by
  induction h with
  | nil => intro cnt; exact WfSGR.nil
  | chr hne ht ih =>
    intro cnt
    rename_i c t
    have step : truncGo (c :: t) false cnt maxv =
        if c = '\x1b' then c :: truncGo t true cnt maxv
        else if maxv ≤ cnt then [] else c :: truncGo t false (cnt + widthOr1 c) maxv := rfl
    rw [step, if_neg hne]
    by_cases hcnt : maxv ≤ cnt
    · rw [if_pos hcnt]
      exact WfSGR.nil
    · rw [if_neg hcnt]
      exact WfSGR.chr hne (ih _)
  | esc hbody ht ih =>
    intro cnt
    rw [truncGo_esc hbody]
    exact WfSGR.esc hbody (ih cnt)

theorem truncGo_visible_bound {l : Str} (h : WfSGR l) (maxv : Nat) :
    ∀ cnt, visible_length (truncGo l false cnt maxv) ≤ maxv + 1 - cnt := by
  induction h with
  | nil =>
    intro cnt
    simp [truncGo, visible_length_nil]
  | chr hne ht ih =>
    intro cnt
    rename_i c t
    have step : truncGo (c :: t) false cnt maxv =
        if c = '\x1b' then c :: truncGo t true cnt maxv
        else if maxv ≤ cnt then [] else c :: truncGo t false (cnt + widthOr1 c) maxv := rfl
    rw [step, if_neg hne]
    by_cases hcnt : maxv ≤ cnt
    · rw [if_pos hcnt]
      simp [visible_length_nil]
    · rw [if_neg hcnt]
      rw [visible_length_cons_ne hne]
      have h1 := ih (cnt + widthOr1 c)
      have h2 := width0_le_widthOr1 c
      have h3 := widthOr1_le_two c
      omega
  | esc hbody ht ih =>
    intro cnt
    rw [truncGo_esc hbody, visible_length_esc hbody]
    exact ih cnt

theorem truncate_to_visible_wf {l : Str} (h : WfSGR l) (maxv : Nat) :
    WfSGR (truncate_to_visible l maxv) :=
  truncGo_wf h maxv 0

theorem truncate_to_visible_bound {l : Str} (h : WfSGR l) (maxv : Nat) :
    visible_length (truncate_to_visible l maxv) ≤ maxv + 1 := by
  have := truncGo_visible_bound h maxv 0
  simpa [truncate_to_visible] using this

/-! ## finishLine -/

theorem wfSGR_hellip : WfSGR [hellip] :=
  WfSGR.chr (by decide) WfSGR.nil

theorem finishLine_wf {width : Nat} {ft : Bool} {pre line : Str}
    (hp : WfSGR pre) (hl : WfSGR line) :
    WfSGR (finishLine width ft pre line).1 := by
  simp only [finishLine]
  split_ifs with h
  · exact wfSGR_append (truncate_to_visible_wf (wfSGR_append hp hl) _) wfSGR_hellip
  · exact wfSGR_append hp hl

theorem visible_length_hellip : visible_length [hellip] = 1 := by decide

theorem finishLine_bound {width : Nat} {pre line : Str}
    (hw : 1 ≤ width) (hp : WfSGR pre) (hl : WfSGR line) :
    visible_length (finishLine width true pre line).1 ≤ width + 1 := by
  simp only [finishLine]
  split_ifs with h
  · rw [visible_length_append_of_wf (truncate_to_visible_wf (wfSGR_append hp hl) _),
      visible_length_hellip]
    have := truncate_to_visible_bound (wfSGR_append hp hl) (width - 1)
    omega
  · simp only [not_and, not_lt] at h
    have h2 := h (by trivial)
    dsimp only
    omega

theorem wfSGR_replicate_space (n : Nat) : WfSGR (List.replicate n ' ') := by
  apply wfSGR_of_noEsc
  intro c hc
  rw [List.mem_replicate] at hc
  rw [hc.2]
  decide

theorem visible_length_replicate_space (n : Nat) :
    visible_length (List.replicate n ' ') = n := by
  rw [visible_length, visible_of_not_mem_esc (by
    intro h
    rw [List.mem_replicate] at h
    exact absurd h.2.symm (by decide))]
  induction n with
  | zero => rfl
  | succ n ih =>
    rw [List.replicate_succ]
    simp only [strWidth, List.map_cons, List.sum_cons] at ih ⊢
    rw [ih]
    have h1 : width0 ' ' = 1 := by decide
    omega

/-! ## The text_wrap loop invariant -/

theorem padded_line_wf {width : Nat} {ft : Bool} {pre line resetter : Str}
    (hp : WfSGR pre) (hl : WfSGR line) (hr : WfSGR resetter) :
    WfSGR ((finishLine width ft pre line).1 ++ resetter ++
      List.replicate (width - visible_length (finishLine width ft pre line).1) ' ') :=
  wfSGR_append (wfSGR_append (finishLine_wf hp hl) hr) (wfSGR_replicate_space _)

theorem padded_line_bound {width : Nat} {pre line resetter : Str}
    (hw : 1 ≤ width) (hp : WfSGR pre) (hl : WfSGR line) (hr : WfSGR resetter)
    (hr0 : visible_length resetter = 0) :
    visible_length ((finishLine width true pre line).1 ++ resetter ++
      List.replicate (width - visible_length (finishLine width true pre line).1) ' ') ≤
      width + 1 := by
  rw [visible_length_append_of_wf (wfSGR_append (finishLine_wf hp hl) hr),
    visible_length_append_of_wf (finishLine_wf hp hl), hr0,
    visible_length_replicate_space]
  have := finishLine_bound hw hp hl
  omega

theorem finalizeMid_line {width : Nat} {ft : Bool} {resetter fpre npre : Str}
    {st : WrapState} :
    (finalizeMid width ft resetter fpre npre st).line = st.line := by
  simp only [finalizeMid]
  split_ifs <;> rfl

theorem mem_ite_append {P : Prop} [Decidable P] {A : List Str} {x l : Str}
    (h : l ∈ if P then A ++ [x] else A) : l ∈ A ∨ l = x := by
  split_ifs at h
  · rcases List.mem_append.mp h with e | e
    · exact Or.inl e
    · simp at e
      exact Or.inr e
  · exact Or.inl h

theorem finalizeMid_inv {width : Nat} {ft : Bool} {resetter fpre npre : Str}
    {st : WrapState}
    (hfp : WfSGR fpre) (hnp : WfSGR npre) (hr : WfSGR resetter)
    (hr0 : visible_length resetter = 0)
    (hline : WfSGR st.line) (hlines : ∀ l ∈ st.lines, WfSGR l)
    (hbound : ft = true → 1 ≤ width → ∀ l ∈ st.lines, visible_length l ≤ width + 1) :
    (∀ l ∈ (finalizeMid width ft resetter fpre npre st).lines, WfSGR l) ∧
    (ft = true → 1 ≤ width →
      ∀ l ∈ (finalizeMid width ft resetter fpre npre st).lines,
        visible_length l ≤ width + 1) := by
  have hpre : WfSGR (if st.lines = [] then fpre else npre) := by
    split_ifs <;> assumption
  unfold finalizeMid
  by_cases h1 : st.line ≠ []
  · rw [if_pos h1]
    refine ⟨?_, ?_⟩
    · intro l hl
      rcases mem_ite_append hl with e | e
      · exact hlines l e
      · subst e
        exact padded_line_wf hpre hline hr
    · intro hft h1w l hl
      rcases mem_ite_append hl with e | e
      · exact hbound hft h1w l e
      · subst e
        subst hft
        exact padded_line_bound h1w hpre hline hr hr0
  · rw [if_neg h1]
    exact ⟨hlines, hbound⟩

theorem placeWord_inv {width indent fpw npw : Nat} {fpre npre : Str} {ft : Bool}
    {resetter : Str} {style1 : List Str} {st : WrapState} {word : Str}
    (hfp : WfSGR fpre) (hnp : WfSGR npre) (hr : WfSGR resetter)
    (hr0 : visible_length resetter = 0)
    (hs1 : ∀ c ∈ style1, WfSGR c) (hw : WfSGR word)
    (hline : WfSGR st.line) (hlines : ∀ l ∈ st.lines, WfSGR l)
    (hbound : ft = true → 1 ≤ width → ∀ l ∈ st.lines, visible_length l ≤ width + 1) :
    WfSGR (placeWord width indent fpw npw fpre npre ft resetter style1 st word).line ∧
    (∀ l ∈ (placeWord width indent fpw npw fpre npre ft resetter style1 st word).lines,
      WfSGR l) ∧
    (ft = true → 1 ≤ width →
      ∀ l ∈ (placeWord width indent fpw npw fpre npre ft resetter style1 st word).lines,
        visible_length l ≤ width + 1) := by
  have hnew : WfSGR (List.replicate indent ' ' ++ style1.flatten ++ word) :=
    wfSGR_append (wfSGR_append (wfSGR_replicate_space indent)
      (wfSGR_flatten style1 hs1)) hw
  have hmid := @finalizeMid_inv width ft resetter fpre npre st
    hfp hnp hr hr0 hline hlines hbound
  simp only [placeWord]
  split_ifs <;>
    first
      | exact ⟨wfSGR_append hline hw, hlines, hbound⟩
      | exact ⟨hnew, hmid.1, hmid.2⟩
      | exact ⟨hline, hlines, hbound⟩

theorem headD_wf {word : Str} (hw : WfSGR word) :
    WfSGR ((extract_ansi_codes word).headD []) := by
  cases h : extract_ansi_codes word with
  | nil => exact WfSGR.nil
  | cons a t =>
    have : a ∈ extract_ansi_codes word := by rw [h]; simp
    exact extract_wf hw a this

theorem wrapStep_inv {width indent fpw npw : Nat} {fpre npre : Str} {ft : Bool}
    {resetter : Str} {st : WrapState} {word : Str}
    (hfp : WfSGR fpre) (hnp : WfSGR npre) (hr : WfSGR resetter)
    (hr0 : visible_length resetter = 0) (hw : WfSGR word)
    (hinv : WrapInv width ft st) :
    WrapInv width ft (wrapStep width indent fpw npw fpre npre ft resetter st word) := by
  obtain ⟨hline, hstyle, hlines, hbound⟩ := hinv
  have hs1 : ∀ c ∈ (if extract_ansi_codes word ≠ [] ∧
      ((extract_ansi_codes word).headD []).isPrefixOf word
      then st.style ++ [(extract_ansi_codes word).headD []] else st.style), WfSGR c := by
    split_ifs with h
    · intro c hc
      rcases List.mem_append.mp hc with e | e
      · exact hstyle c e
      · simp only [List.mem_singleton] at e
        subst e
        exact headD_wf hw
    · exact hstyle
  have hsa : ∀ c ∈ (if ((extract_ansi_codes word).headD []).isPrefixOf word
      then (extract_ansi_codes word).drop 1 else extract_ansi_codes word), WfSGR c := by
    split_ifs with h
    · intro c hc
      exact extract_wf hw c (List.drop_subset _ _ hc)
    · exact extract_wf hw
  have hplace := @placeWord_inv width indent fpw npw fpre npre ft resetter
    (if extract_ansi_codes word ≠ [] ∧
      ((extract_ansi_codes word).headD []).isPrefixOf word
      then st.style ++ [(extract_ansi_codes word).headD []] else st.style)
    st word hfp hnp hr hr0 hs1 hw hline hlines hbound
  simp only [wrapStep]
  refine ⟨hplace.1, ?_, hplace.2.1, hplace.2.2⟩
  intro c hc
  refine ansi_collapse_wf ?_ c hc
  intro x hx
  rcases List.mem_append.mp hx with e | e
  · exact hs1 x e
  · exact hsa x e

theorem foldl_wrapStep_inv {width indent fpw npw : Nat} {fpre npre : Str} {ft : Bool}
    {resetter : Str}
    (hfp : WfSGR fpre) (hnp : WfSGR npre) (hr : WfSGR resetter)
    (hr0 : visible_length resetter = 0) :
    ∀ (ws : List Str) (st : WrapState), (∀ w ∈ ws, WfSGR w) → WrapInv width ft st →
      WrapInv width ft
        (ws.foldl (wrapStep width indent fpw npw fpre npre ft resetter) st) := by
  intro ws
  induction ws with
  | nil => intro st _ h; exact h
  | cons w ws ih =>
    intro st hws h
    exact ih _ (fun x hx => hws x (List.mem_cons_of_mem _ hx))
      (wrapStep_inv hfp hnp hr hr0 (hws w (by simp)) h)

/-! ## C5: no escape sequence is split across a line boundary -/

/-- C5 (amended): for inputs and prefixes whose escapes are all complete SGR
sequences `ESC '[' [0-9;]* 'm'` (the class the style tracker emits and the
truncation scanner understands), every line produced by `text_wrap` is again
escape-well-formed: no line contains an escape sequence missing its
terminator.  (For OSC escapes the guarantee fails — force-truncation can cut
inside an OSC sequence, see the counterexample.) -/
theorem text_wrap_no_split_escape (text : Str) (width indent : Nat)
    (fpre npre : Str) (ft pf : Bool)
    (htext : WfSGR text) (hfp : WfSGR fpre) (hnp : WfSGR npre) :
    ∀ l ∈ (text_wrap text width indent fpre npre ft pf).lines, WfSGR l := by
  simp only [text_wrap]
  by_cases hw0 : width = 0
  · rw [if_pos hw0]
    intro l hl
    simp [WrappedText.empty] at hl
  · rw [if_neg hw0]
    by_cases hws : split_text text = []
    · rw [if_pos hws]
      intro l hl
      simp [WrappedText.empty] at hl
    · rw [if_neg hws]
      have hresw : WfSGR (if pf then ([] : Str) else strOf "\x1b[0m") := by
        split_ifs
        · exact WfSGR.nil
        · exact @WfSGR.esc ['0'] [] (by decide) WfSGR.nil
      have hres0 : visible_length (if pf then ([] : Str) else strOf "\x1b[0m") = 0 := by
        split_ifs <;> decide
      have hwords : ∀ w ∈ split_text text ++ [[]], WfSGR w := by
        intro w hw
        rcases List.mem_append.mp hw with e | e
        · exact split_text_wf htext w e
        · simp at e
          subst e
          exact WfSGR.nil
      set st := (split_text text ++ [[]]).foldl
        (wrapStep width indent (visible_length fpre) (visible_length npre) fpre npre ft
          (if pf = true then ([] : Str) else strOf "\x1b[0m"))
        ⟨[], [], [], false⟩ with hstdef
      have hinv := @foldl_wrapStep_inv width indent
        (visible_length fpre) (visible_length npre) fpre npre ft
        (if pf = true then ([] : Str) else strOf "\x1b[0m")
        hfp hnp hresw hres0 (split_text text ++ [[]]) ⟨[], [], [], false⟩ hwords
        ⟨WfSGR.nil, by simp, by simp, by simp⟩
      rw [← hstdef] at hinv
      obtain ⟨hline, hstyle, hlines, hbound⟩ := hinv
      by_cases hfin : st.line ≠ [] ∧ rustTrim (visible st.line) ≠ []
      · rw [if_pos hfin]
        intro l hl
        rcases List.mem_append.mp hl with e | e
        · exact hlines l e
        · simp only [List.mem_singleton] at e
          subst e
          exact wfSGR_append (finishLine_wf (by split_ifs <;> assumption) hline) hresw
      · rw [if_neg hfin]
        exact hlines

/-- Witness for C5: a bold-styled input wraps into lines that are all
escape-well-formed. -/
theorem text_wrap_no_split_escape_witness :
    WfSGR ('\x1b' :: '[' :: '1' :: 'm' :: strOf "hello world") ∧
      ∀ l ∈ (text_wrap ('\x1b' :: '[' :: '1' :: 'm' :: strOf "hello world")
        5 0 [] [] true false).lines, WfSGR l := by
  have hwf : WfSGR ('\x1b' :: '[' :: '1' :: 'm' :: strOf "hello world") :=
    @WfSGR.esc ['1'] (strOf "hello world") (by decide)
      (wfSGR_of_noEsc (strOf "hello world") (by decide))
  exact ⟨hwf, text_wrap_no_split_escape _ 5 0 [] [] true false hwf WfSGR.nil WfSGR.nil⟩

/-- C5 (counterexample): the input `"ab" ++ OSC-hyperlink ++ "cd"` contains
only complete escape sequences (no ESC survives stripping), yet with
force-truncate at width 3 the produced line retains an ESC that begins no
complete escape sequence: truncation cut the OSC sequence after the `m`
inside its body, leaving the sequence without its terminator. -/
theorem text_wrap_no_split_escape_cex :
    ('\x1b' ∉ visible (strOf "ab\x1b]8;;mXY\x1b\\cd")) ∧
      ¬ (∀ l ∈ (text_wrap (strOf "ab\x1b]8;;mXY\x1b\\cd") 3 0 [] [] true false).lines,
          '\x1b' ∉ visible l) := by
  decide

/-! ## C2: force-truncated lines and the width bound -/

/-- C2 (amended): with force-truncate on, positive width, and input and
prefixes whose escapes are all complete SGR sequences, every produced line
occupies at most `width + 1` display columns.  The claimed bound `width` is
off by one: the truncation helper checks its column budget before copying a
character, so a double-width character at the clip boundary can overshoot
the `width - 1` budget by one column, and the appended ellipsis brings the
line to `width + 1` (see the counterexample). -/
theorem text_wrap_truncate_bound (text : Str) (width indent : Nat)
    (fpre npre : Str) (pf : Bool) (hw : 0 < width)
    (htext : WfSGR text) (hfp : WfSGR fpre) (hnp : WfSGR npre) :
    ∀ l ∈ (text_wrap text width indent fpre npre true pf).lines,
      visible_length l ≤ width + 1 := by
  simp only [text_wrap]
  rw [if_neg (by omega : ¬width = 0)]
  by_cases hws : split_text text = []
  · rw [if_pos hws]
    intro l hl
    simp [WrappedText.empty] at hl
  · rw [if_neg hws]
    have hresw : WfSGR (if pf then ([] : Str) else strOf "\x1b[0m") := by
      split_ifs
      · exact WfSGR.nil
      · exact @WfSGR.esc ['0'] [] (by decide) WfSGR.nil
    have hres0 : visible_length (if pf then ([] : Str) else strOf "\x1b[0m") = 0 := by
      split_ifs <;> decide
    have hwords : ∀ w ∈ split_text text ++ [[]], WfSGR w := by
      intro w hw2
      rcases List.mem_append.mp hw2 with e | e
      · exact split_text_wf htext w e
      · simp at e
        subst e
        exact WfSGR.nil
    set st := (split_text text ++ [[]]).foldl
      (wrapStep width indent (visible_length fpre) (visible_length npre) fpre npre true
        (if pf = true then ([] : Str) else strOf "\x1b[0m"))
      ⟨[], [], [], false⟩ with hstdef
    have hinv := @foldl_wrapStep_inv width indent
      (visible_length fpre) (visible_length npre) fpre npre true
      (if pf = true then ([] : Str) else strOf "\x1b[0m")
      hfp hnp hresw hres0 (split_text text ++ [[]]) ⟨[], [], [], false⟩ hwords
      ⟨WfSGR.nil, by simp, by simp, by simp⟩
    rw [← hstdef] at hinv
    obtain ⟨hline, hstyle, hlines, hbound⟩ := hinv
    by_cases hfin : st.line ≠ [] ∧ rustTrim (visible st.line) ≠ []
    · rw [if_pos hfin]
      intro l hl
      rcases List.mem_append.mp hl with e | e
      · exact hbound rfl (by omega) l e
      · simp only [List.mem_singleton] at e
        subst e
        have hprew : WfSGR (if st.lines = [] then fpre else npre) := by
          split_ifs <;> assumption
        rw [visible_length_append_of_wf (finishLine_wf hprew hline), hres0]
        have := finishLine_bound (by omega : 1 ≤ width) hprew hline
        omega
    · rw [if_neg hfin]
      exact hbound rfl (by omega)

/-- Witness for C2: wrapping plain text at width 4 with force-truncate keeps
every line within 5 columns. -/
theorem text_wrap_truncate_bound_witness :
    (0 < 4) ∧
      ∀ l ∈ (text_wrap (strOf "hello world") 4 0 [] [] true false).lines,
        visible_length l ≤ 4 + 1 :=
  ⟨by decide,
    text_wrap_truncate_bound (strOf "hello world") 4 0 [] [] false (by decide)
      (wfSGR_of_noEsc _ (by decide)) WfSGR.nil WfSGR.nil⟩

/-- C2 (counterexample): ten double-width CJK characters wrapped at width 8
with force-truncate produce a line of visible width 9 (> 8): the truncation
to 7 columns overshoots to 8 because the clipped character is double-width,
and the ellipsis adds one more column. -/
theorem text_wrap_truncate_bound_cex :
    ¬ (∀ l ∈ (text_wrap (strOf "你你你你你你你你你你") 8 0 [] [] true false).lines,
        visible_length l ≤ 8) := by
  decide
